import Mathlib

/-!
# Verification of the QR frame-multiplexing protocol core

Shallow embedding of the pure-logic core of this repository
(`tests/core/qr-test-architecture.js`): chunking, frame codec
(JSON encode/decode), sequence validation, reconstruction and
integrity verification, with proofs of the specified properties.

Modelling conventions:
* JS strings are modelled as `List Char`.  JS strings are sequences of
  UTF-16 code units; the embedding uses Unicode scalar values, which
  agrees with JS on the Basic Multilingual Plane (`charCodeAt` is
  modelled by `Char.toNat`).
* JS numbers appearing in frames (`v`, `i`, `t`, `totalChunks`,
  `timestamp`) are integers in every reachable state, so JSON numbers
  are modelled as `Int`; fractional numbers are out of scope.
* `JSON.parse` / `JSON.stringify` are modelled by an executable JSON
  printer and parser over this value type (`jsonStringify`,
  `jsonParse`); the parser is total (fuel-indexed), which models the
  fact that `JSON.parse` failures are caught and returned as values.
* `Date.now()` is modelled as an explicit `now : Int` parameter.
-/

/-- Decimal digit value of a character, `none` if it is not `0`..`9`. -/
def digitVal (c : Char) : Option Nat :=
  if 48 ≤ c.toNat ∧ c.toNat ≤ 57 then some (c.toNat - 48) else none

/-- Hexadecimal digit value of a character (lowercase or uppercase). -/
def hexVal (c : Char) : Option Nat :=
  if 48 ≤ c.toNat ∧ c.toNat ≤ 57 then some (c.toNat - 48)
  else if 97 ≤ c.toNat ∧ c.toNat ≤ 102 then some (c.toNat - 87)
  else if 65 ≤ c.toNat ∧ c.toNat ≤ 70 then some (c.toNat - 55)
  else none

/-- The character for a digit value `d < 16` (lowercase), as produced by
JS `Number.prototype.toString(16)` and `toString(10)`. -/
def digitChar (d : Nat) : Char :=
  if d < 10 then Char.ofNat (48 + d) else Char.ofNat (87 + d)

/-- Fuel-indexed digit expansion in base 10 (structural, so that the
kernel can evaluate it; any fuel above the number suffices). -/
def natToDecAux : Nat → Nat → List Char
  | 0, _ => []
  | fuel + 1, n =>
    if n < 10 then [digitChar n] else natToDecAux fuel (n / 10) ++ [digitChar (n % 10)]

/-- Decimal digit string of a natural number, most significant digit
first, as produced by JS `Number.prototype.toString()`. -/
def natToDec (n : Nat) : List Char :=
  natToDecAux (n + 1) n

/-- Fuel-indexed digit expansion in base 16. -/
def natToHexAux : Nat → Nat → List Char
  | 0, _ => []
  | fuel + 1, n =>
    if n < 16 then [digitChar n] else natToHexAux fuel (n / 16) ++ [digitChar (n % 16)]

/-- Hexadecimal digit string of a natural number (lowercase), as
produced by JS `Number.prototype.toString(16)`. -/
def natToHex (n : Nat) : List Char :=
  natToHexAux (n + 1) n

theorem natToDecAux_congr : ∀ (n fuel fuel' : Nat), n < fuel → n < fuel' →
    natToDecAux fuel n = natToDecAux fuel' n := by
  intro n
  induction n using Nat.strong_induction_on with
  | _ n ih =>
    intro fuel fuel' hf hf'
    obtain ⟨f, rfl⟩ : ∃ f, fuel = f + 1 := ⟨fuel - 1, by omega⟩
    obtain ⟨f', rfl⟩ : ∃ f', fuel' = f' + 1 := ⟨fuel' - 1, by omega⟩
    rw [natToDecAux, natToDecAux]
    by_cases h : n < 10
    · rw [if_pos h, if_pos h]
    · rw [if_neg h, if_neg h]
      have hdiv := Nat.div_lt_self (show 0 < n by omega) (show 1 < 10 by omega)
      rw [ih (n / 10) hdiv f f' (by omega) (by omega)]

/-- One-step unfolding of `natToDec`. -/
theorem natToDec_unfold (n : Nat) :
    natToDec n = if n < 10 then [digitChar n] else natToDec (n / 10) ++ [digitChar (n % 10)] := by
  show natToDecAux (n + 1) n = _
  rw [natToDecAux]
  by_cases h : n < 10
  · rw [if_pos h, if_pos h]
  · rw [if_neg h, if_neg h]
    have hdiv := Nat.div_lt_self (show 0 < n by omega) (show 1 < 10 by omega)
    rw [natToDecAux_congr (n / 10) n (n / 10 + 1) (by omega) (by omega)]
    rfl

theorem natToHexAux_congr : ∀ (n fuel fuel' : Nat), n < fuel → n < fuel' →
    natToHexAux fuel n = natToHexAux fuel' n := by
  intro n
  induction n using Nat.strong_induction_on with
  | _ n ih =>
    intro fuel fuel' hf hf'
    obtain ⟨f, rfl⟩ : ∃ f, fuel = f + 1 := ⟨fuel - 1, by omega⟩
    obtain ⟨f', rfl⟩ : ∃ f', fuel' = f' + 1 := ⟨fuel' - 1, by omega⟩
    rw [natToHexAux, natToHexAux]
    by_cases h : n < 16
    · rw [if_pos h, if_pos h]
    · rw [if_neg h, if_neg h]
      have hdiv := Nat.div_lt_self (show 0 < n by omega) (show 1 < 16 by omega)
      rw [ih (n / 16) hdiv f f' (by omega) (by omega)]

/-- One-step unfolding of `natToHex`. -/
theorem natToHex_unfold (n : Nat) :
    natToHex n = if n < 16 then [digitChar n] else natToHex (n / 16) ++ [digitChar (n % 16)] := by
  show natToHexAux (n + 1) n = _
  rw [natToHexAux]
  by_cases h : n < 16
  · rw [if_pos h, if_pos h]
  · rw [if_neg h, if_neg h]
    have hdiv := Nat.div_lt_self (show 0 < n by omega) (show 1 < 16 by omega)
    rw [natToHexAux_congr (n / 16) n (n / 16 + 1) (by omega) (by omega)]
    rfl

/-- Decimal string of an integer, as produced by JS string conversion
of an integral number. -/
def intToStr (n : Int) : List Char :=
  if n < 0 then '-' :: natToDec n.natAbs else natToDec n.natAbs

/-- JSON values (the results of `JSON.parse` and arguments of
`JSON.stringify`).  Numbers are restricted to integers (see module
docstring). -/
inductive JsonValue where
  | jnull
  | jbool (b : Bool)
  | jnum (n : Int)
  | jstr (s : List Char)
  | jarr (elems : List JsonValue)
  | jobj (fields : List (List Char × JsonValue))

open JsonValue

mutual

/-- Structural (boolean) equality on JSON values. -/
def beqJson : JsonValue → JsonValue → Bool
  | jnull, jnull => true
  | jbool a, jbool b => a == b
  | jnum a, jnum b => a == b
  | jstr a, jstr b => a == b
  | jarr a, jarr b => beqJsonList a b
  | jobj a, jobj b => beqJsonMembers a b
  | _, _ => false

/-- Structural equality on lists of JSON values. -/
def beqJsonList : List JsonValue → List JsonValue → Bool
  | [], [] => true
  | x :: xs, y :: ys => beqJson x y && beqJsonList xs ys
  | _, _ => false

/-- Structural equality on JSON object member lists. -/
def beqJsonMembers : List (List Char × JsonValue) → List (List Char × JsonValue) → Bool
  | [], [] => true
  | (k, v) :: xs, (k', v') :: ys => k == k' && beqJson v v' && beqJsonMembers xs ys
  | _, _ => false

end

mutual

theorem beqJson_sound : ∀ (a b : JsonValue), beqJson a b = true → a = b
  | jnull, b, h => by cases b <;> simp_all [beqJson]
  | jbool x, b, h => by cases b <;> simp_all [beqJson]
  | jnum x, b, h => by cases b <;> simp_all [beqJson]
  | jstr s, b, h => by cases b <;> simp_all [beqJson]
  | jarr xs, jarr ys, h => by
      rw [beqJsonList_sound xs ys (by simpa [beqJson] using h)]
  | jarr xs, jnull, h => by simp_all [beqJson]
  | jarr xs, jbool _, h => by simp_all [beqJson]
  | jarr xs, jnum _, h => by simp_all [beqJson]
  | jarr xs, jstr _, h => by simp_all [beqJson]
  | jarr xs, jobj _, h => by simp_all [beqJson]
  | jobj ms, jobj ms', h => by
      rw [beqJsonMembers_sound ms ms' (by simpa [beqJson] using h)]
  | jobj ms, jnull, h => by simp_all [beqJson]
  | jobj ms, jbool _, h => by simp_all [beqJson]
  | jobj ms, jnum _, h => by simp_all [beqJson]
  | jobj ms, jstr _, h => by simp_all [beqJson]
  | jobj ms, jarr _, h => by simp_all [beqJson]

theorem beqJsonList_sound : ∀ (a b : List JsonValue), beqJsonList a b = true → a = b
  | [], [], _ => rfl
  | [], _ :: _, h => by simp_all [beqJsonList]
  | _ :: _, [], h => by simp_all [beqJsonList]
  | x :: xs, y :: ys, h => by
      have h' := h
      simp only [beqJsonList, Bool.and_eq_true] at h'
      rw [beqJson_sound x y h'.1, beqJsonList_sound xs ys h'.2]

theorem beqJsonMembers_sound :
    ∀ (a b : List (List Char × JsonValue)), beqJsonMembers a b = true → a = b
  | [], [], _ => rfl
  | [], _ :: _, h => by simp_all [beqJsonMembers]
  | _ :: _, [], h => by simp_all [beqJsonMembers]
  | (k, v) :: xs, (k', v') :: ys, h => by
      have h' := h
      simp only [beqJsonMembers, Bool.and_eq_true] at h'
      have hk : k = k' := by simpa using h'.1.1
      rw [hk, beqJson_sound v v' h'.1.2, beqJsonMembers_sound xs ys h'.2]

end

mutual

theorem beqJson_rfl : ∀ (a : JsonValue), beqJson a a = true
  | jnull => rfl
  | jbool x => by simp [beqJson]
  | jnum x => by simp [beqJson]
  | jstr s => by simp [beqJson]
  | jarr xs => by simpa [beqJson] using beqJsonList_rfl xs
  | jobj ms => by simpa [beqJson] using beqJsonMembers_rfl ms

theorem beqJsonList_rfl : ∀ (a : List JsonValue), beqJsonList a a = true
  | [] => rfl
  | x :: xs => by
      simp only [beqJsonList, Bool.and_eq_true]
      exact ⟨beqJson_rfl x, beqJsonList_rfl xs⟩

theorem beqJsonMembers_rfl : ∀ (a : List (List Char × JsonValue)), beqJsonMembers a a = true
  | [] => rfl
  | (k, v) :: xs => by
      simp only [beqJsonMembers, Bool.and_eq_true]
      exact ⟨⟨by simp, beqJson_rfl v⟩, beqJsonMembers_rfl xs⟩

end

instance : DecidableEq JsonValue := fun a b =>
  if h : beqJson a b = true then isTrue (beqJson_sound a b h)
  else isFalse (fun he => h (he ▸ beqJson_rfl a))

/-- JS truthiness of a JSON value (`!v` in the source negates this).
Objects and arrays are always truthy, `null` is falsy, numbers are
falsy iff zero, strings are falsy iff empty. -/
def jsTruthy : JsonValue → Bool
  | jnull => false
  | jbool b => b
  | jnum n => n != 0
  | jstr s => !s.isEmpty
  | jarr _ => true
  | jobj _ => true

/-- JS property access `v[k]`: `none` models `undefined` (absent key or
non-object receiver; string/array built-ins are not relevant here). -/
def getField (v : JsonValue) (k : List Char) : Option JsonValue :=
  match v with
  | jobj fields => fields.lookup k
  | _ => none

/-- Truthiness of `v[k]` (`undefined` is falsy). -/
def fieldTruthy (v : JsonValue) (k : List Char) : Bool :=
  match getField v k with
  | some w => jsTruthy w
  | none => false

mutual

/-- String conversion of one element inside `Array.prototype.join`:
`null` becomes the empty string there, arrays display as their
comma-join, objects as `[object Object]`. -/
def jsDisplay : JsonValue → List Char
  | jnull => []
  | jbool true => "true".toList
  | jbool false => "false".toList
  | jnum n => intToStr n
  | jstr s => s
  | jarr xs => jsDisplayList xs
  | jobj _ => "[object Object]".toList

/-- Display of an array's elements, comma-separated. -/
def jsDisplayList : List JsonValue → List Char
  | [] => []
  | [x] => jsDisplay x
  | x :: y :: rest => jsDisplay x ++ ',' :: jsDisplayList (y :: rest)

end

/-- String conversion used by `Array.prototype.join`: `undefined` and
`null` become the empty string. -/
def joinDisplay : Option JsonValue → List Char
  | none => []
  | some v => jsDisplay v

/-- Join a list of strings with a separator (JS `Array.prototype.join`). -/
def joinSep (sep : List Char) : List (List Char) → List Char
  | [] => []
  | [x] => x
  | x :: y :: rest => x ++ sep ++ joinSep sep (y :: rest)

/-- `JSON.stringify` string escaping for one character: quote and
backslash are escaped, control characters use the short escapes
`\b \f \n \r \t` or `\u00XX`; everything else is emitted verbatim. -/
def escapeChar (c : Char) : List Char :=
  if c = '"' then ['\\', '"']
  else if c = '\\' then ['\\', '\\']
  else if c.toNat = 8 then ['\\', 'b']
  else if c.toNat = 12 then ['\\', 'f']
  else if c = '\n' then ['\\', 'n']
  else if c = '\r' then ['\\', 'r']
  else if c = '\t' then ['\\', 't']
  else if c.toNat < 32 then
    '\\' :: 'u' :: '0' :: '0' :: [digitChar (c.toNat / 16), digitChar (c.toNat % 16)]
  else [c]

/-- Escape a whole string (without the surrounding quotes). -/
def escapeString (s : List Char) : List Char :=
  (s.map escapeChar).flatten

mutual

/-- `JSON.stringify` (no indentation, as called by the source). -/
def jsonStringify : JsonValue → List Char
  | jnull => "null".toList
  | jbool true => "true".toList
  | jbool false => "false".toList
  | jnum n => intToStr n
  | jstr s => '"' :: escapeString s ++ ['"']
  | jarr xs => '[' :: stringifyElems xs ++ [']']
  | jobj ms => '{' :: stringifyMembers ms ++ ['}']

/-- Array elements, comma-separated. -/
def stringifyElems : List JsonValue → List Char
  | [] => []
  | [x] => jsonStringify x
  | x :: y :: rest => jsonStringify x ++ ',' :: stringifyElems (y :: rest)

/-- Object members `"key":value`, comma-separated. -/
def stringifyMembers : List (List Char × JsonValue) → List Char
  | [] => []
  | [(k, v)] => '"' :: escapeString k ++ '"' :: ':' :: jsonStringify v
  | (k, v) :: m :: rest =>
      '"' :: escapeString k ++ '"' :: ':' :: jsonStringify v ++ ',' :: stringifyMembers (m :: rest)

end

/-- JSON whitespace. -/
def isJsonWs (c : Char) : Bool :=
  c = ' ' || c = '\t' || c = '\n' || c = '\r'

/-- Skip leading JSON whitespace. -/
def skipWs (s : List Char) : List Char :=
  s.dropWhile isJsonWs

/-- Is the character a decimal digit? -/
def isDigitChar (c : Char) : Bool :=
  (digitVal c).isSome

/-- Parse the remainder of a JSON string literal (after the opening
quote), returning the decoded string and the rest of the input.
Unescaped control characters are rejected, as in `JSON.parse`. -/
def parseStringRest : List Char → Option (List Char × List Char)
  | [] => none
  | c :: rest =>
    if c = '"' then some ([], rest)
    else if c = '\\' then
      match rest with
      | 'u' :: h1 :: h2 :: h3 :: h4 :: rest' =>
        match hexVal h1, hexVal h2, hexVal h3, hexVal h4 with
        | some a, some b, some c3, some d =>
          (parseStringRest rest').map
            (fun p => (Char.ofNat (((a * 16 + b) * 16 + c3) * 16 + d) :: p.1, p.2))
        | _, _, _, _ => none
      | e :: rest' =>
        if e = '"' then (parseStringRest rest').map (fun p => ('"' :: p.1, p.2))
        else if e = '\\' then (parseStringRest rest').map (fun p => ('\\' :: p.1, p.2))
        else if e = '/' then (parseStringRest rest').map (fun p => ('/' :: p.1, p.2))
        else if e = 'b' then (parseStringRest rest').map (fun p => (Char.ofNat 8 :: p.1, p.2))
        else if e = 'f' then (parseStringRest rest').map (fun p => (Char.ofNat 12 :: p.1, p.2))
        else if e = 'n' then (parseStringRest rest').map (fun p => ('\n' :: p.1, p.2))
        else if e = 'r' then (parseStringRest rest').map (fun p => ('\r' :: p.1, p.2))
        else if e = 't' then (parseStringRest rest').map (fun p => ('\t' :: p.1, p.2))
        else none
      | [] => none
    else if c.toNat < 32 then none
    else (parseStringRest rest).map (fun p => (c :: p.1, p.2))

/-- Accumulate decimal digits (JS/JSON number integer part). -/
def parseDigitsAux : List Char → Nat → Nat × List Char
  | [], acc => (acc, [])
  | c :: rest, acc =>
    match digitVal c with
    | some d => parseDigitsAux rest (acc * 10 + d)
    | none => (acc, c :: rest)

/-- Parse one or more decimal digits. -/
def parseNatDigits (s : List Char) : Option (Nat × List Char) :=
  match s with
  | c :: _ => if isDigitChar c then some (parseDigitsAux s 0) else none
  | [] => none

/-- Parse a JSON integer (optional minus sign followed by digits).
Fractional and exponent parts do not occur in this protocol and are
not modelled (JSON numbers are doubles; frame fields are integral). -/
def parseNumber : List Char → Option (Int × List Char)
  | '-' :: rest => (parseNatDigits rest).map (fun p => (-(p.1 : Int), p.2))
  | s => (parseNatDigits s).map (fun p => ((p.1 : Int), p.2))

mutual

/-- Parse one JSON value (fuel-indexed; the fuel only bounds the
nesting/member recursion and is chosen large enough at the top level). -/
def parseValue : Nat → List Char → Option (JsonValue × List Char)
  | 0, _ => none
  | fuel + 1, s =>
    match skipWs s with
    | [] => none
    | c :: r =>
      if c = '{' then
        match skipWs r with
        | '}' :: r2 => some (jobj [], r2)
        | r1 => (parseMembers fuel r1).map (fun p => (jobj p.1, p.2))
      else if c = '[' then
        match skipWs r with
        | ']' :: r2 => some (jarr [], r2)
        | r1 => (parseElems fuel r1).map (fun p => (jarr p.1, p.2))
      else if c = '"' then
        (parseStringRest r).map (fun p => (jstr p.1, p.2))
      else if c = 'n' then
        match r with
        | 'u' :: 'l' :: 'l' :: r2 => some (jnull, r2)
        | _ => none
      else if c = 't' then
        match r with
        | 'r' :: 'u' :: 'e' :: r2 => some (jbool true, r2)
        | _ => none
      else if c = 'f' then
        match r with
        | 'a' :: 'l' :: 's' :: 'e' :: r2 => some (jbool false, r2)
        | _ => none
      else if c = '-' || isDigitChar c then
        (parseNumber (c :: r)).map (fun p => (jnum p.1, p.2))
      else none

/-- Parse the members of a JSON object (positioned at the first key,
which must exist; the empty object is handled in `parseValue`). -/
def parseMembers : Nat → List Char → Option (List (List Char × JsonValue) × List Char)
  | 0, _ => none
  | fuel + 1, s =>
    match skipWs s with
    | '"' :: r =>
      match parseStringRest r with
      | none => none
      | some (key, r1) =>
        match skipWs r1 with
        | ':' :: r2 =>
          match parseValue fuel r2 with
          | none => none
          | some (v, r3) =>
            match skipWs r3 with
            | ',' :: r4 => (parseMembers fuel r4).map (fun p => ((key, v) :: p.1, p.2))
            | '}' :: r4 => some ([(key, v)], r4)
            | _ => none
        | _ => none
    | _ => none

/-- Parse the elements of a JSON array (positioned at the first
element, which must exist). -/
def parseElems : Nat → List Char → Option (List JsonValue × List Char)
  | 0, _ => none
  | fuel + 1, s =>
    match parseValue fuel s with
    | none => none
    | some (v, r1) =>
      match skipWs r1 with
      | ',' :: r2 => (parseElems fuel r2).map (fun p => (v :: p.1, p.2))
      | ']' :: r2 => some ([v], r2)
      | _ => none

end

/-- `JSON.parse`, modelled as a total function returning `none` on any
parse failure (the source catches the exception; see `decodeFrame`). -/
def jsonParse (s : List Char) : Option JsonValue :=
  match parseValue (s.length + 20) s with
  | some (v, rest) => if skipWs rest = [] then some v else none
  | none => none

example : jsonParse "{}".toList = some (jobj []) := by decide
example : jsonParse "invalid-json-".toList = none := by decide
example : jsonParse "[3,null]".toList = some (jarr [jnum 3, jnull]) := by decide

/-- JS `String.prototype.slice(start, end)`: negative indices count
from the end, indices are clamped to `[0, length]`. -/
def sliceJS (text : List Char) (start fin : Int) : List Char :=
  let len : Int := text.length
  let s := if start < 0 then max (len + start) 0 else min start len
  let e := if fin < 0 then max (len + fin) 0 else min fin len
  (text.take e.toNat).drop s.toNat

/-- Fuel-indexed trace of the source's chunking loop
`for (let i = 0; i < text.length; i += maxSize) chunks.push(text.slice(i, i + maxSize))`;
`none` means the loop has not finished within the given fuel (for
`maxSize ≤ 0` and nonempty text it never does). -/
def chunkLoop : Nat → List Char → Int → Int → List (List Char) → Option (List (List Char))
  | 0, _, _, _, _ => none
  | fuel + 1, text, maxSize, i, acc =>
    if i < (text.length : Int) then
      chunkLoop fuel text maxSize (i + maxSize) (acc ++ [sliceJS text i (i + maxSize)])
    else some acc

/-- Fuel-indexed chunking (structural; any fuel above the text length
suffices and the wrapper `chunkData` supplies one). -/
def chunkDataAux : Nat → List Char → Int → List (List Char)
  | 0, _, _ => []
  | fuel + 1, text, maxSize =>
    if 0 < maxSize ∧ text ≠ [] then
      text.take maxSize.toNat :: chunkDataAux fuel (text.drop maxSize.toNat) maxSize
    else []

/-- `chunkData(text, maxSize)`: the value of the source's chunking loop
whenever it terminates (positive `maxSize`; see `chunkData_eq_chunkLoop`).
For `maxSize ≤ 0` the JS loop diverges on nonempty text (see
`chunkLoop_neg_diverges`); this total model returns `[]` there. -/
def chunkData (text : List Char) (maxSize : Int) : List (List Char) :=
  chunkDataAux (text.length + 1) text maxSize

theorem chunkDataAux_congr : ∀ (fuel fuel' : Nat) (text : List Char) (m : Int),
    text.length < fuel → text.length < fuel' →
    chunkDataAux fuel text m = chunkDataAux fuel' text m := by
  intro fuel
  induction fuel with
  | zero => intro fuel' text m h _; omega
  | succ fuel ih =>
    intro fuel' text m h h'
    obtain ⟨f', rfl⟩ : ∃ f', fuel' = f' + 1 := ⟨fuel' - 1, by omega⟩
    rw [chunkDataAux, chunkDataAux]
    by_cases hc : 0 < m ∧ text ≠ []
    · rw [if_pos hc, if_pos hc]
      have h1 : 0 < m.toNat := by omega
      have h2 : text.length ≠ 0 := fun hn => hc.2 (List.eq_nil_of_length_eq_zero hn)
      congr 1
      apply ih
      · simp only [List.length_drop]; omega
      · simp only [List.length_drop]; omega
    · rw [if_neg hc, if_neg hc]

/-- One-step unfolding of `chunkData` (the recursion of the source loop). -/
theorem chunkData_unfold (text : List Char) (maxSize : Int) :
    chunkData text maxSize =
      if 0 < maxSize ∧ text ≠ [] then
        text.take maxSize.toNat :: chunkData (text.drop maxSize.toNat) maxSize
      else [] := by
  show chunkDataAux (text.length + 1) text maxSize = _
  rw [chunkDataAux]
  by_cases hc : 0 < maxSize ∧ text ≠ []
  · rw [if_pos hc, if_pos hc]
    have h1 : 0 < maxSize.toNat := by omega
    have h2 : text.length ≠ 0 := fun hn => hc.2 (List.eq_nil_of_length_eq_zero hn)
    congr 1
    apply chunkDataAux_congr
    · simp only [List.length_drop]; omega
    · simp only [List.length_drop]; omega
  · rw [if_neg hc, if_neg hc]

/-- ECMAScript `ToInt32`: reduce an integer into `[-2^31, 2^31)`. -/
def toInt32 (n : Int) : Int :=
  let m := n % 4294967296
  if m < 2147483648 then m else m - 4294967296

/-- `calculateChecksum(text)`: the rolling hash
`hash = ((hash << 5) - hash) + charCodeAt(i); hash = hash & hash`
(`<< 5` is a 32-bit shift of an int32 value, i.e. `toInt32 (hash * 32)`,
and `hash & hash` coerces the exact sum back with `ToInt32`), then
`Math.abs(hash).toString(16)`. -/
def calculateChecksum (text : List Char) : List Char :=
  let hash := text.foldl
    (fun hash c => toInt32 (toInt32 (hash * 32) - hash + (c.toNat : Int))) 0
  natToHex hash.natAbs

/-- The metadata object built by `generateQRData`
(`{totalChunks, timestamp, checksum, encoding}`; `Date.now()` is the
explicit `now` parameter). -/
def mkMetadata (text : List Char) (totalChunks : Nat) (now : Int) : JsonValue :=
  jobj [("totalChunks".toList, jnum totalChunks),
        ("timestamp".toList, jnum now),
        ("checksum".toList, jstr (calculateChecksum text)),
        ("encoding".toList, jstr "utf-8".toList)]

/-- The frame object `{v: 1, i: index, t: total, d: chunk, m: index === 0 ? metadata : undefined}`;
`JSON.stringify` omits members whose value is `undefined`, which the
model expresses by conditionally appending the `m` member. -/
def frameJsonObj (chunk : List Char) (index total : Int) (metadata : JsonValue) : JsonValue :=
  jobj ([("v".toList, jnum 1), ("i".toList, jnum index), ("t".toList, jnum total),
         ("d".toList, jstr chunk)] ++
        (if index = 0 then [("m".toList, metadata)] else []))

/-- `encodeFrame(chunk, index, total, metadata)`. -/
def encodeFrame (chunk : List Char) (index total : Int) (metadata : JsonValue) : List Char :=
  jsonStringify (frameJsonObj chunk index total metadata)

/-- The error object `{error: 'Invalid frame data'}` returned by
`decodeFrame` when `JSON.parse` throws. -/
def decodeErrorValue : JsonValue :=
  jobj [("error".toList, jstr "Invalid frame data".toList)]

/-- `decodeFrame(raw)`: `JSON.parse` inside try/catch. -/
def decodeFrame (raw : List Char) : JsonValue :=
  match jsonParse raw with
  | some v => v
  | none => decodeErrorValue

/-- The options argument of `generateQRData`.  `errorCorrectionLevel`
and `format` are read into the config but never used by the pure
logic. -/
structure GenOptions where
  maxChunkSize : Option Int
  errorCorrectionLevel : Option (List Char)
  format : Option (List Char)
deriving DecidableEq

/-- `options.maxChunkSize || 800`: the JS `||` replaces exactly the
falsy values (absent, `0`, `NaN`); any other number, including negative
ones, is kept as-is. -/
def jsOrDefault (v : Option Int) (d : Int) : Int :=
  match v with
  | some n => if n = 0 then d else n
  | none => d

/-- One element of the array returned by `generateQRData`. -/
structure GenFrame where
  frameNumber : Nat
  totalFrames : Nat
  data : List Char
  metadata : Option JsonValue
  raw : List Char
deriving DecidableEq

/-- `generateQRData(text, options)` from the pure-logic environment.
`metadata := null` for `index != 0` is modelled by `none`. -/
def generateQRData (text : List Char) (options : GenOptions) (now : Int) : List GenFrame :=
  let maxChunkSize := jsOrDefault options.maxChunkSize 800
  let chunks := if text = [] then [[]] else chunkData text maxChunkSize
  let metadata := mkMetadata text chunks.length now
  chunks.enum.map (fun p =>
    { frameNumber := p.1 + 1
      totalFrames := chunks.length
      data := p.2
      metadata := if p.1 = 0 then some metadata else none
      raw := encodeFrame p.2 p.1 chunks.length metadata })

/-- First-seen deduplication keyed by the `i` property, the
`seenIndices` set being the accumulator (models the `Set`/`forEach`
dedup loop; `Set.has` uses SameValueZero, modelled by structural
equality — the keys are primitives in every reachable state). -/
def dedupByIndex : List JsonValue → List (Option JsonValue) → List JsonValue
  | [], _ => []
  | f :: rest, seen =>
    if getField f "i".toList ∈ seen then dedupByIndex rest seen
    else f :: dedupByIndex rest (getField f "i".toList :: seen)

/-- First-seen distinct elements (`[...new Set(xs)]`). -/
def dedupJS {α : Type} [DecidableEq α] : List α → List α → List α
  | [], _ => []
  | x :: rest, seen => if x ∈ seen then dedupJS rest seen else x :: dedupJS rest (x :: seen)

/-- `frames.filter(f => !f || f.error)` (`!f` is falsiness; a frame
that is not an object has no `error` property). -/
def invalidFramesOf (fs : List JsonValue) : List JsonValue :=
  fs.filter (fun f => !jsTruthy f || fieldTruthy f "error".toList)

/-- The deduplicated frame list (`uniqueFrames`). -/
def uniqueFramesOf (fs : List JsonValue) : List JsonValue :=
  dedupByIndex fs []

/-- Numeric value used by the sort comparators `(a, b) => a - b` and
`(a, b) => a.i - b.i`.  On non-numeric values the JS comparator yields
`NaN` and the engine's order is unspecified; the model totalises those
cases with `0`.  Downstream only membership of `frameIndicesOf` is
used, so its order is immaterial. -/
def optIdxNum : Option JsonValue → Int
  | some (jnum n) => n
  | _ => 0

/-- Comparator order for sorting index values. -/
def optIdxLe (a b : Option JsonValue) : Prop := optIdxNum a ≤ optIdxNum b

instance : DecidableRel optIdxLe := fun a b => by unfold optIdxLe; infer_instance
instance : IsTotal (Option JsonValue) optIdxLe := ⟨fun a b => Int.le_total _ _⟩
instance : IsTrans (Option JsonValue) optIdxLe := ⟨fun _ _ _ => Int.le_trans⟩

/-- `frameIndices = uniqueFrames.map(f => f.i).sort((a, b) => a - b)`
(a stable comparison sort, modelled by insertion sort). -/
def frameIndicesOf (fs : List JsonValue) : List (Option JsonValue) :=
  ((uniqueFramesOf fs).map (fun f => getField f "i".toList)).insertionSort optIdxLe

/-- `Array.from({length: t}, (_, i) => i).length` for the values of
`t` that occur: a number gives `max(⌊t⌋, 0)`, anything non-numeric
(in particular `undefined`) gives `0`. -/
def jsArrayLen : Option JsonValue → Nat
  | some (jnum n) => n.toNat
  | _ => 0

/-- The declared total of `uniqueFrames[0]` — the length of
`expectedIndices`.  `uniqueFramesOf fs` is nonempty whenever `fs` is
(dedup always keeps the first element), so the default is unreachable
in `validateFrameSequence`. -/
def expectedTotalOf (fs : List JsonValue) : Nat :=
  jsArrayLen (getField ((uniqueFramesOf fs).headD (jobj [])) "t".toList)

/-- `missing = expectedIndices.filter(i => !frameIndices.includes(i))`
with `expectedIndices = [0 .. t0-1]` (already ascending, so `missing`
is ascending). -/
def missingOf (fs : List JsonValue) : List Nat :=
  (List.range (expectedTotalOf fs)).filter
    (fun i => !((frameIndicesOf fs).contains (some (jnum i))))

/-- `totals = [...new Set(uniqueFrames.map(f => f.t))]`. -/
def totalsOf (fs : List JsonValue) : List (Option JsonValue) :=
  dedupJS ((uniqueFramesOf fs).map (fun f => getField f "t".toList)) []

/-- Result of `validateFrameSequence`: `{valid: false, error}` or
`{valid: true, uniqueFrames}`. -/
inductive ValidationOutcome where
  | invalid (error : List Char)
  | valid (uniqueFrames : List JsonValue)
deriving DecidableEq

/-- `validateFrameSequence(frames)`.  The `none` input models a
null/undefined frames argument (`!frames`); an array is always truthy
in JS, so that test catches exactly null/undefined. -/
def validateFrameSequence (frames : Option (List JsonValue)) : ValidationOutcome :=
  match frames with
  | none => .invalid "No frames provided".toList
  | some fs =>
    if fs.length = 0 then .invalid "No frames provided".toList
    else if 0 < (invalidFramesOf fs).length then .invalid "Invalid frame data".toList
    else if 0 < (missingOf fs).length then
      .invalid ("Missing frames: ".toList ++ joinSep ", ".toList ((missingOf fs).map natToDec))
    else if (totalsOf fs).length ≠ 1 then .invalid "Inconsistent total frame count".toList
    else .valid (uniqueFramesOf fs)

/-- Sort key of `frames.sort((a, b) => a.i - b.i)` (see `optIdxNum`). -/
def frameIdxNum (f : JsonValue) : Int := optIdxNum (getField f "i".toList)

/-- Frame order by declared index. -/
def frameLe (a b : JsonValue) : Prop := frameIdxNum a ≤ frameIdxNum b

instance : DecidableRel frameLe := fun a b => by unfold frameLe; infer_instance
instance : IsTotal JsonValue frameLe := ⟨fun a b => Int.le_total _ _⟩
instance : IsTrans JsonValue frameLe := ⟨fun _ _ _ => Int.le_trans⟩

/-- `reconstructData(frames)`: sort by `i` (stable comparison sort,
modelled by insertion sort), join the `d` payloads, take
`sortedFrames[0].m || {}` as metadata.  It is only called on nonempty
validated sets, so the head default is unreachable. -/
def reconstructData (frames : List JsonValue) : List Char × JsonValue :=
  let sortedFrames := frames.insertionSort frameLe
  let text := (sortedFrames.map (fun f => joinDisplay (getField f "d".toList))).flatten
  let metadata :=
    match getField (sortedFrames.headD (jobj [])) "m".toList with
    | some m => if jsTruthy m then m else jobj []
    | none => jobj []
  (text, metadata)

/-- Result object of `verifyIntegrity`; the fields `expected`/`actual`
are absent (`none`) in the no-checksum branch. -/
structure IntegrityResult where
  valid : Bool
  reason : List Char
  expected : Option JsonValue
  actual : Option (List Char)
deriving DecidableEq

/-- `verifyIntegrity(reconstructed)` on `{text, metadata}`. -/
def verifyIntegrity (text : List Char) (metadata : JsonValue) : IntegrityResult :=
  if !(fieldTruthy metadata "checksum".toList) then
    { valid := true, reason := "No checksum to verify".toList, expected := none, actual := none }
  else
    let calculatedChecksum := calculateChecksum text
    let valid : Bool := getField metadata "checksum".toList == some (jstr calculatedChecksum)
    { valid := valid
      reason := if valid then "Checksum verified".toList else "Checksum mismatch".toList
      expected := getField metadata "checksum".toList
      actual := some calculatedChecksum }

/-- Result of `parseQRData`: `{error}` or `{data, metadata, integrity}`. -/
inductive ParseResult where
  | failure (error : List Char)
  | success (data : List Char) (metadata : JsonValue) (integrity : IntegrityResult)
deriving DecidableEq

/-- `parseQRData(frames)` from the pure-logic environment.  The source
fallback `validation.uniqueFrames || parsedFrames` is dead, since
`uniqueFrames` (a nonempty array, hence truthy) is always present on a
valid result. -/
def parseQRData (frames : List GenFrame) : ParseResult :=
  let parsedFrames := frames.map (fun f => decodeFrame f.raw)
  match validateFrameSequence (some parsedFrames) with
  | .invalid e => .failure e
  | .valid uniqueFrames =>
    let reconstructed := reconstructData uniqueFrames
    .success reconstructed.1 reconstructed.2 (verifyIntegrity reconstructed.1 reconstructed.2)

/-! ## Round-trip of the number printer through the parser -/

theorem digitVal_digitChar : ∀ d, d < 10 → digitVal (digitChar d) = some d := by decide

theorem hexVal_digitChar : ∀ d, d < 16 → hexVal (digitChar d) = some d := by decide

theorem isDigitChar_digitChar : ∀ d, d < 10 → isDigitChar (digitChar d) = true := by decide

/-- `true` iff the string does not start with a decimal digit (contexts
in which a printed number is followed by such a string parse back
unambiguously). -/
def noLeadDigit : List Char → Bool
  | [] => true
  | c :: _ => !isDigitChar c

theorem parseDigitsAux_stop (s : List Char) (acc : Nat) (h : noLeadDigit s = true) :
    parseDigitsAux s acc = (acc, s) := by
  cases s with
  | nil => rfl
  | cons c r =>
    simp only [noLeadDigit, Bool.not_eq_true'] at h
    simp only [parseDigitsAux]
    simp only [isDigitChar, Option.isSome] at h
    cases hd : digitVal c with
    | none => rfl
    | some d => rw [hd] at h; simp at h

theorem natToDec_cons (n : Nat) : ∃ d t, d < 10 ∧ natToDec n = digitChar d :: t := by
  induction n using Nat.strong_induction_on with
  | _ n ih =>
    by_cases h : n < 10
    · exact ⟨n, [], h, by rw [natToDec_unfold]; simp [h]⟩
    · obtain ⟨d, t, hd, ht⟩ := ih (n / 10) (Nat.div_lt_self (by omega) (by omega))
      exact ⟨d, t ++ [digitChar (n % 10)], hd, by rw [natToDec_unfold]; simp [h, ht]⟩

theorem parseDigitsAux_natToDec (n : Nat) : ∀ (acc : Nat) (rest : List Char),
    parseDigitsAux (natToDec n ++ rest) acc =
      parseDigitsAux rest (acc * 10 ^ (natToDec n).length + n) := by
  induction n using Nat.strong_induction_on with
  | _ n ih =>
    intro acc rest
    by_cases h : n < 10
    · rw [natToDec_unfold]
      simp only [h, if_pos, if_true, List.singleton_append, List.length_singleton, pow_one]
      simp [parseDigitsAux, digitVal_digitChar n h]
    · have hrec := ih (n / 10) (Nat.div_lt_self (by omega) (by omega))
      rw [natToDec_unfold]
      simp only [h, if_neg, if_false, not_false_iff]
      rw [List.append_assoc, hrec, List.length_append, List.length_singleton]
      simp only [List.singleton_append, parseDigitsAux, digitVal_digitChar (n % 10) (by omega)]
      congr 1
      rw [pow_succ]
      have : 10 * (n / 10) + n % 10 = n := Nat.div_add_mod n 10
      ring_nf
      omega

theorem parseNatDigits_natToDec (n : Nat) (rest : List Char) (h : noLeadDigit rest = true) :
    parseNatDigits (natToDec n ++ rest) = some (n, rest) := by
  obtain ⟨d, t, hd, ht⟩ := natToDec_cons n
  rw [parseNatDigits.eq_def]
  rw [ht, List.cons_append]
  simp only [isDigitChar_digitChar d hd, if_pos]
  rw [← List.cons_append, ← ht, parseDigitsAux_natToDec]
  simp [parseDigitsAux_stop rest n h]

theorem digitChar_ne_minus : ∀ d, d < 10 → digitChar d ≠ '-' := by decide

theorem parseNumber_not_minus (c : Char) (r : List Char) (h : c ≠ '-') :
    parseNumber (c :: r) = (parseNatDigits (c :: r)).map (fun p => ((p.1 : Int), p.2)) := by
  rw [parseNumber.eq_def]
  split
  · next heq => rw [List.cons.injEq] at heq; exact absurd heq.1 h
  · rfl

theorem parseNumber_intToStr (n : Int) (rest : List Char) (h : noLeadDigit rest = true) :
    parseNumber (intToStr n ++ rest) = some (n, rest) := by
  by_cases hn : n < 0
  · rw [intToStr]
    simp only [hn, if_pos, List.cons_append]
    rw [parseNumber]
    rw [parseNatDigits_natToDec n.natAbs rest h]
    simp only [Option.map_some']
    congr 1
    congr 1
    omega
  · rw [intToStr]
    simp only [hn, if_neg, not_false_iff]
    obtain ⟨d, t, hd, ht⟩ := natToDec_cons n.natAbs
    rw [ht, List.cons_append, parseNumber_not_minus _ _ (digitChar_ne_minus d hd),
      ← List.cons_append, ← ht, parseNatDigits_natToDec n.natAbs rest h]
    simp only [Option.map_some']
    congr 1
    congr 1
    omega

/-! ## Round-trip of the string printer through the parser -/

theorem parseStringRest_escapeChar (c : Char) (tail out rest : List Char)
    (ih : parseStringRest tail = some (out, rest)) :
    parseStringRest (escapeChar c ++ tail) = some (c :: out, rest) := by
  by_cases h1 : c = '"'
  · subst h1; simp [escapeChar, parseStringRest, ih]
  · by_cases h2 : c = '\\'
    · subst h2; simp [escapeChar, parseStringRest, ih]
    · by_cases h3 : c.toNat = 8
      · have hc : c = Char.ofNat 8 := by rw [← h3, Char.ofNat_toNat]
        simp [escapeChar, h1, h2, h3, parseStringRest, ih, hc]
      · by_cases h4 : c.toNat = 12
        · have hc : c = Char.ofNat 12 := by rw [← h4, Char.ofNat_toNat]
          simp [escapeChar, h1, h2, h3, h4, parseStringRest, ih, hc]
        · by_cases h5 : c = '\n'
          · subst h5; simp [escapeChar, parseStringRest, ih]
          · by_cases h6 : c = '\r'
            · subst h6; simp [escapeChar, parseStringRest, ih]
            · by_cases h7 : c = '\t'
              · subst h7; simp [escapeChar, parseStringRest, ih]
              · by_cases h8 : c.toNat < 32
                · have hd1 := hexVal_digitChar (c.toNat / 16) (by omega)
                  have hd2 := hexVal_digitChar (c.toNat % 16) (by omega)
                  have h0 : hexVal '0' = some 0 := by decide
                  have hval : ((0 * 16 + 0) * 16 + c.toNat / 16) * 16 + c.toNat % 16 = c.toNat := by
                    omega
                  simp only [escapeChar, h1, h2, h3, h4, h5, h6, h7, h8, if_false, if_true,
                    if_neg, if_pos, List.cons_append, List.nil_append]
                  simp [parseStringRest, hd1, hd2, h0, hval, ih, Char.ofNat_toNat]
                  rw [show c.toNat / 16 * 16 + c.toNat % 16 = c.toNat by omega]
                  exact Char.ofNat_toNat c
                · simp only [escapeChar, h1, h2, h3, h4, h5, h6, h7, h8, if_false, if_neg,
                    not_false_iff, List.cons_append, List.nil_append]
                  rw [parseStringRest.eq_def]
                  simp [h1, h2, h8, ih]

theorem parseStringRest_escapeString (s : List Char) : ∀ (rest : List Char),
    parseStringRest (escapeString s ++ '"' :: rest) = some (s, rest) := by
  induction s with
  | nil =>
    intro rest
    show parseStringRest ([] ++ '"' :: rest) = some ([], rest)
    rw [List.nil_append, parseStringRest.eq_def]
    simp
  | cons c s ih =>
    intro rest
    have : escapeString (c :: s) = escapeChar c ++ escapeString s := by
      simp [escapeString]
    rw [this, List.append_assoc]
    exact parseStringRest_escapeChar c _ s rest (ih rest)

/-! ## Round-trip of printed JSON values through the parser -/

/-- The printed form of `v`, followed by any continuation not starting
with a digit, parses back to exactly `v` with any fuel ≥ `d`. -/
def ValNeeds (v : JsonValue) (d : Nat) : Prop :=
  ∀ (fuel : Nat) (rest : List Char), d ≤ fuel → noLeadDigit rest = true →
    parseValue fuel (jsonStringify v ++ rest) = some (v, rest)

theorem valNeeds_mono {v : JsonValue} {d d' : Nat} (h : d ≤ d') (hv : ValNeeds v d) :
    ValNeeds v d' := fun fuel rest hf => hv fuel rest (le_trans h hf)

theorem skipWs_cons (c : Char) (l : List Char) (h : isJsonWs c = false) :
    skipWs (c :: l) = c :: l := by
  simp [skipWs, List.dropWhile_cons, h]

theorem digitChar_facts : ∀ d, d < 10 →
    isJsonWs (digitChar d) = false ∧ digitChar d ≠ '{' ∧ digitChar d ≠ '[' ∧
    digitChar d ≠ '"' ∧ digitChar d ≠ 'n' ∧ digitChar d ≠ 't' ∧ digitChar d ≠ 'f' ∧
    (decide (digitChar d = '-') || isDigitChar (digitChar d)) = true := by decide

theorem valNeeds_num (n : Int) : ValNeeds (jnum n) 1 := by
  intro fuel rest hf hrest
  obtain ⟨f, rfl⟩ : ∃ f, fuel = f + 1 := ⟨fuel - 1, by omega⟩
  show parseValue (f + 1) (intToStr n ++ rest) = some (jnum n, rest)
  have key : ∀ (c : Char) (r : List Char), c :: r = intToStr n ++ rest →
      isJsonWs c = false ∧ c ≠ '{' ∧ c ≠ '[' ∧ c ≠ '"' ∧ c ≠ 'n' ∧ c ≠ 't' ∧ c ≠ 'f' ∧
      (decide (c = '-') || isDigitChar c) = true := by
    intro c r hcr
    by_cases hn : n < 0
    · have : intToStr n = '-' :: natToDec n.natAbs := by simp [intToStr, hn]
      rw [this] at hcr
      simp only [List.cons_append, List.cons.injEq] at hcr
      rw [hcr.1]
      refine ⟨by decide, by decide, by decide, by decide, by decide, by decide, by decide, ?_⟩
      simp
    · obtain ⟨d, tl, hd, ht⟩ := natToDec_cons n.natAbs
      have : intToStr n = digitChar d :: tl := by simp [intToStr, hn, ht]
      rw [this] at hcr
      simp only [List.cons_append, List.cons.injEq] at hcr
      rw [hcr.1]
      exact digitChar_facts d hd
  cases hs : intToStr n ++ rest with
  | nil =>
    exfalso
    have : intToStr n ≠ [] := by
      obtain ⟨d, tl, hd, ht⟩ := natToDec_cons n.natAbs
      by_cases hn : n < 0 <;> simp [intToStr, hn, ht]
    simp [List.append_eq_nil] at hs
    exact this hs.1
  | cons c r =>
    obtain ⟨hws, hb1, hb2, hb3, hb4, hb5, hb6, hnum⟩ := key c r hs.symm
    rw [parseValue.eq_def]
    simp only [skipWs_cons c r hws, hb1, hb2, hb3, hb4, hb5, hb6, if_neg, not_false_iff]
    rw [if_pos (by simpa using hnum)]
    rw [← hs, parseNumber_intToStr n rest hrest]
    rfl

theorem valNeeds_str (s : List Char) : ValNeeds (jstr s) 1 := by
  intro fuel rest hf hrest
  obtain ⟨f, rfl⟩ : ∃ f, fuel = f + 1 := ⟨fuel - 1, by omega⟩
  show parseValue (f + 1) (('"' :: escapeString s ++ ['"']) ++ rest) = some (jstr s, rest)
  have : ('"' :: escapeString s ++ ['"']) ++ rest = '"' :: (escapeString s ++ '"' :: rest) := by
    simp
  rw [this, parseValue.eq_def]
  simp only [skipWs_cons '"' _ (by decide)]
  simp only [if_neg (by decide : ¬('"' : Char) = '{'), if_neg (by decide : ¬('"' : Char) = '[')]
  simp only [eq_self_iff_true, if_true]
  rw [parseStringRest_escapeString s rest]
  rfl

theorem noLeadDigit_cons (c : Char) (l : List Char) :
    noLeadDigit (c :: l) = !isDigitChar c := rfl

theorem parseMembers_stringify (d : Nat) :
    ∀ (ms : List (List Char × JsonValue)),
      (∀ kv ∈ ms, ValNeeds kv.2 d) → ms ≠ [] →
      ∀ (fuel : Nat) (rest : List Char), d + ms.length ≤ fuel →
      parseMembers fuel (stringifyMembers ms ++ '}' :: rest) = some (ms, rest) := by
  intro ms
  induction ms with
  | nil => intro _ h; exact absurd rfl h
  | cons kv tail ih =>
    obtain ⟨k, v⟩ := kv
    intro hall _ fuel rest hfuel
    simp only [List.length_cons] at hfuel
    obtain ⟨f, rfl⟩ : ∃ f, fuel = f + 1 := ⟨fuel - 1, by omega⟩
    have hv : ValNeeds v d := hall (k, v) (List.mem_cons_self _ _)
    cases tail with
    | nil =>
      have hms : stringifyMembers [(k, v)] ++ '}' :: rest =
          '"' :: (escapeString k ++ '"' :: (':' :: (jsonStringify v ++ '}' :: rest))) := by
        simp [stringifyMembers]
      rw [hms, parseMembers.eq_def]
      simp only [skipWs_cons '"' _ (by decide)]
      rw [parseStringRest_escapeString k (':' :: (jsonStringify v ++ '}' :: rest))]
      simp only [skipWs_cons ':' _ (by decide)]
      rw [hv f ('}' :: rest) (by omega) (by rw [noLeadDigit_cons]; decide)]
      simp only [skipWs_cons '}' _ (by decide)]
    | cons m tl =>
      have hms : stringifyMembers ((k, v) :: m :: tl) ++ '}' :: rest =
          '"' :: (escapeString k ++ '"' ::
            (':' :: (jsonStringify v ++ ',' :: (stringifyMembers (m :: tl) ++ '}' :: rest)))) := by
        simp [stringifyMembers]
      rw [hms, parseMembers.eq_def]
      simp only [skipWs_cons '"' _ (by decide)]
      rw [parseStringRest_escapeString k
        (':' :: (jsonStringify v ++ ',' :: (stringifyMembers (m :: tl) ++ '}' :: rest)))]
      simp only [skipWs_cons ':' _ (by decide)]
      rw [hv f (',' :: (stringifyMembers (m :: tl) ++ '}' :: rest)) (by omega)
        (by rw [noLeadDigit_cons]; decide)]
      simp only [skipWs_cons ',' _ (by decide)]
      rw [ih (fun kv hkv => hall kv (List.mem_cons_of_mem _ hkv)) (by simp) f rest
        (by simp only [List.length_cons] at hfuel ⊢; omega)]
      rfl

theorem stringifyMembers_head (ms : List (List Char × JsonValue)) (hne : ms ≠ []) :
    ∃ t, stringifyMembers ms = '"' :: t := by
  cases ms with
  | nil => exact absurd rfl hne
  | cons kv tl =>
    obtain ⟨k, v⟩ := kv
    cases tl with
    | nil => exact ⟨escapeString k ++ '"' :: ':' :: jsonStringify v, by simp [stringifyMembers]⟩
    | cons m tl' =>
      exact ⟨escapeString k ++ '"' :: ':' :: jsonStringify v ++
        ',' :: stringifyMembers (m :: tl'), by simp [stringifyMembers]⟩

theorem valNeeds_obj (d : Nat) (ms : List (List Char × JsonValue)) (hne : ms ≠ [])
    (hall : ∀ kv ∈ ms, ValNeeds kv.2 d) :
    ValNeeds (jobj ms) (d + ms.length + 1) := by
  intro fuel rest hfuel hrest
  obtain ⟨f, rfl⟩ : ∃ f, fuel = f + 1 := ⟨fuel - 1, by omega⟩
  show parseValue (f + 1) (('{' :: stringifyMembers ms ++ ['}']) ++ rest) = some (jobj ms, rest)
  have hshape : ('{' :: stringifyMembers ms ++ ['}']) ++ rest =
      '{' :: (stringifyMembers ms ++ '}' :: rest) := by simp
  obtain ⟨t, ht⟩ := stringifyMembers_head ms hne
  rw [hshape, parseValue.eq_def]
  simp only [skipWs_cons '{' _ (by decide)]
  simp only [eq_self_iff_true, if_true]
  have hsk : skipWs (stringifyMembers ms ++ '}' :: rest) = stringifyMembers ms ++ '}' :: rest := by
    rw [ht, List.cons_append, skipWs_cons _ _ (by decide)]
  rw [hsk]
  split
  · next r2 heq =>
    exfalso
    rw [ht, List.cons_append] at heq
    simp only [List.cons.injEq] at heq
    exact absurd heq.1 (by decide)
  · rw [parseMembers_stringify d ms hall hne f rest (by omega)]
    rfl

theorem valNeeds_mkMetadata (text : List Char) (n : Nat) (now : Int) :
    ValNeeds (mkMetadata text n now) 6 := by
  have h := valNeeds_obj 1
    [("totalChunks".toList, jnum (n : Int)), ("timestamp".toList, jnum now),
     ("checksum".toList, jstr (calculateChecksum text)),
     ("encoding".toList, jstr "utf-8".toList)]
    (by simp)
    (by
      intro kv hkv
      simp only [List.mem_cons, List.not_mem_nil, or_false] at hkv
      rcases hkv with rfl | rfl | rfl | rfl
      · exact valNeeds_num _
      · exact valNeeds_num _
      · exact valNeeds_str _
      · exact valNeeds_str _)
  simpa [mkMetadata] using h

theorem valNeeds_frameJsonObj (chunk : List Char) (i t : Int) (meta : JsonValue)
    (hmeta : ValNeeds meta 6) : ValNeeds (frameJsonObj chunk i t meta) 12 := by
  by_cases hi : i = 0
  · have h := valNeeds_obj 6
      [("v".toList, jnum 1), ("i".toList, jnum i), ("t".toList, jnum t),
       ("d".toList, jstr chunk), ("m".toList, meta)]
      (by simp)
      (by
        intro kv hkv
        simp only [List.mem_cons, List.not_mem_nil, or_false] at hkv
        rcases hkv with rfl | rfl | rfl | rfl | rfl
        · exact valNeeds_mono (by omega) (valNeeds_num _)
        · exact valNeeds_mono (by omega) (valNeeds_num _)
        · exact valNeeds_mono (by omega) (valNeeds_num _)
        · exact valNeeds_mono (by omega) (valNeeds_str _)
        · exact hmeta)
    have heq : frameJsonObj chunk i t meta =
        jobj [("v".toList, jnum 1), ("i".toList, jnum i), ("t".toList, jnum t),
              ("d".toList, jstr chunk), ("m".toList, meta)] := by
      simp [frameJsonObj, hi]
    rw [heq]
    simpa using h
  · have h := valNeeds_obj 6
      [("v".toList, jnum 1), ("i".toList, jnum i), ("t".toList, jnum t),
       ("d".toList, jstr chunk)]
      (by simp)
      (by
        intro kv hkv
        simp only [List.mem_cons, List.not_mem_nil, or_false] at hkv
        rcases hkv with rfl | rfl | rfl | rfl
        · exact valNeeds_mono (by omega) (valNeeds_num _)
        · exact valNeeds_mono (by omega) (valNeeds_num _)
        · exact valNeeds_mono (by omega) (valNeeds_num _)
        · exact valNeeds_mono (by omega) (valNeeds_str _))
    have heq : frameJsonObj chunk i t meta =
        jobj [("v".toList, jnum 1), ("i".toList, jnum i), ("t".toList, jnum t),
              ("d".toList, jstr chunk)] := by
      simp [frameJsonObj, hi]
    rw [heq]
    exact valNeeds_mono (by simp) h

/-- The frame codec round-trip: decoding an encoded frame recovers the
frame object (`JSON.parse ∘ JSON.stringify`). -/
theorem decodeFrame_encodeFrame (chunk : List Char) (i t : Int) (meta : JsonValue)
    (hmeta : ValNeeds meta 6) :
    decodeFrame (encodeFrame chunk i t meta) = frameJsonObj chunk i t meta := by
  have hv := valNeeds_frameJsonObj chunk i t meta hmeta
  have hp := hv ((jsonStringify (frameJsonObj chunk i t meta)).length + 20) [] (by omega) rfl
  rw [List.append_nil] at hp
  unfold decodeFrame encodeFrame jsonParse
  rw [hp]
  simp [skipWs]

/-! ## Chunker: concatenation invariant, bounds, and loop semantics -/

theorem chunkData_flatten_aux (m : Int) (hm : 0 < m) :
    ∀ (n : Nat) (t : List Char), t.length ≤ n → (chunkData t m).flatten = t := by
  intro n
  induction n with
  | zero =>
    intro t ht
    have : t = [] := by cases t <;> simp_all
    subst this
    rw [chunkData_unfold]
    simp
  | succ n ih =>
    intro t ht
    rw [chunkData_unfold]
    by_cases h : 0 < m ∧ t ≠ []
    · rw [if_pos h]
      simp only [List.flatten_cons]
      rw [ih (t.drop m.toNat) (by simp only [List.length_drop]; omega)]
      exact List.take_append_drop _ t
    · have : t = [] := by
        rcases not_and_or.mp h with h' | h'
        · exact absurd hm h'
        · exact not_not.mp h'
      subst this
      rw [if_neg h]
      rfl

/-- Concatenating the chunks in order reproduces the text. -/
theorem chunkData_flatten (t : List Char) (m : Int) (hm : 0 < m) :
    (chunkData t m).flatten = t :=
  chunkData_flatten_aux m hm t.length t le_rfl

theorem chunkData_mem_length_aux (m : Int) :
    ∀ (n : Nat) (t : List Char), t.length ≤ n →
      ∀ c ∈ chunkData t m, c.length ≤ m.toNat := by
  intro n
  induction n with
  | zero =>
    intro t ht c hc
    have : t = [] := by cases t <;> simp_all
    subst this
    rw [chunkData_unfold] at hc
    simp at hc
  | succ n ih =>
    intro t ht c hc
    rw [chunkData_unfold] at hc
    by_cases h : 0 < m ∧ t ≠ []
    · rw [if_pos h] at hc
      rcases List.mem_cons.mp hc with rfl | hc'
      · simpa using List.length_take_le _ _
      · exact ih (t.drop m.toNat) (by simp only [List.length_drop]; omega) c hc'
    · rw [if_neg h] at hc
      simp at hc

/-- Every chunk has length at most `maxSize`. -/
theorem chunkData_mem_length (t : List Char) (m : Int) (c : List Char)
    (hc : c ∈ chunkData t m) : c.length ≤ m.toNat :=
  chunkData_mem_length_aux m t.length t le_rfl c hc

theorem chunkData_ne_nil (t : List Char) (m : Int) (hm : 0 < m) (ht : t ≠ []) :
    chunkData t m ≠ [] := by
  rw [chunkData_unfold, if_pos ⟨hm, ht⟩]
  simp

theorem sliceJS_window (text : List Char) (i m : Int) (h0 : 0 ≤ i)
    (hi : i < (text.length : Int)) (hm : 0 < m) :
    sliceJS text i (i + m) = (text.drop i.toNat).take m.toNat := by
  simp only [sliceJS]
  rw [if_neg (by omega), if_neg (by omega)]
  rw [min_eq_left (by omega : i ≤ (text.length : Int))]
  rw [List.drop_take]
  have : ((i + m) ⊓ (text.length : Int)).toNat - i.toNat =
      min m.toNat ((text.drop i.toNat).length) := by
    simp only [List.length_drop]
    omega
  rw [this, List.take_eq_take]
  simp only [List.length_drop]
  omega

theorem chunkLoop_eq_chunkData (text : List Char) (m : Int) (hm : 0 < m) :
    ∀ (fuel : Nat) (i : Int) (acc : List (List Char)),
      0 ≤ i → (text.drop i.toNat).length < fuel →
      chunkLoop fuel text m i acc = some (acc ++ chunkData (text.drop i.toNat) m) := by
  intro fuel
  induction fuel with
  | zero => intro i acc _ hf; omega
  | succ fuel ih =>
    intro i acc h0 hf
    rw [chunkLoop]
    by_cases hi : i < (text.length : Int)
    · rw [if_pos hi]
      rw [sliceJS_window text i m h0 hi hm]
      have hdrop : text.drop (i + m).toNat = (text.drop i.toNat).drop m.toNat := by
        rw [List.drop_drop]
        congr 1
        omega
      rw [ih (i + m) _ (by omega)
        (by simp only [List.length_drop] at hf ⊢; omega)]
      rw [hdrop]
      have hne : text.drop i.toNat ≠ [] := by
        intro hnil
        have := congrArg List.length hnil
        simp only [List.length_drop, List.length_nil] at this
        omega
      conv_rhs => rw [chunkData_unfold, if_pos ⟨hm, hne⟩]
      simp
    · rw [if_neg hi]
      have : text.drop i.toNat = [] := by
        apply List.eq_nil_of_length_eq_zero
        simp only [List.length_drop]
        omega
      rw [this, chunkData_unfold]
      simp

/-- For positive `maxSize` the source's chunk loop terminates and
computes exactly `chunkData` (the bridge certifying the total model). -/
theorem chunkData_eq_chunkLoop (text : List Char) (m : Int) (hm : 0 < m) :
    chunkLoop (text.length + 1) text m 0 [] = some (chunkData text m) := by
  have := chunkLoop_eq_chunkData text m hm (text.length + 1) 0 [] le_rfl
    (by simp)
  simpa using this

/-- For a negative `maxSize` the source's chunk loop never terminates
on nonempty text: the index only decreases, so the guard
`i < text.length` never becomes false. -/
theorem chunkLoop_neg_diverges (text : List Char) (m : Int) (hm : m < 0) (ht : text ≠ []) :
    ∀ (fuel : Nat) (i : Int), i ≤ 0 → ∀ acc, chunkLoop fuel text m i acc = none := by
  intro fuel
  induction fuel with
  | zero => intros; rfl
  | succ fuel ih =>
    intro i hi acc
    rw [chunkLoop]
    have hlen : 0 < text.length := List.length_pos.mpr ht
    rw [if_pos (by exact_mod_cast lt_of_le_of_lt hi (by exact_mod_cast hlen))]
    exact ih (i + m) (by omega) _

/-! ## Structure of decoded generated frames -/

theorem getField_frame_i (c : List Char) (k n : Int) (meta : JsonValue) :
    getField (frameJsonObj c k n meta) "i".toList = some (jnum k) := by
  by_cases hk : k = 0 <;> simp only [frameJsonObj, getField, hk, if_pos, if_neg] <;> rfl

theorem getField_frame_t (c : List Char) (k n : Int) (meta : JsonValue) :
    getField (frameJsonObj c k n meta) "t".toList = some (jnum n) := by
  by_cases hk : k = 0 <;> simp only [frameJsonObj, getField, hk, if_pos, if_neg] <;> rfl

theorem getField_frame_d (c : List Char) (k n : Int) (meta : JsonValue) :
    getField (frameJsonObj c k n meta) "d".toList = some (jstr c) := by
  by_cases hk : k = 0 <;> simp only [frameJsonObj, getField, hk, if_pos, if_neg] <;> rfl

theorem getField_frame_m (c : List Char) (k n : Int) (meta : JsonValue) :
    getField (frameJsonObj c k n meta) "m".toList =
      (if k = 0 then some meta else none) := by
  by_cases hk : k = 0 <;> simp only [frameJsonObj, getField, hk, if_pos, if_neg] <;> rfl

theorem getField_frame_error (c : List Char) (k n : Int) (meta : JsonValue) :
    getField (frameJsonObj c k n meta) "error".toList = none := by
  by_cases hk : k = 0 <;> simp only [frameJsonObj, getField, hk, if_pos, if_neg] <;> rfl

theorem fieldTruthy_frame_error (c : List Char) (k n : Int) (meta : JsonValue) :
    fieldTruthy (frameJsonObj c k n meta) "error".toList = false := by
  unfold fieldTruthy
  rw [getField_frame_error]

theorem jsTruthy_frame (c : List Char) (k n : Int) (meta : JsonValue) :
    jsTruthy (frameJsonObj c k n meta) = true := by
  simp [frameJsonObj, jsTruthy]

theorem getField_mkMetadata_checksum (text : List Char) (n : Nat) (now : Int) :
    getField (mkMetadata text n now) "checksum".toList =
      some (jstr (calculateChecksum text)) := by
  simp only [mkMetadata, getField]
  rfl

theorem natToHex_ne_nil (n : Nat) : natToHex n ≠ [] := by
  rw [natToHex_unfold]
  by_cases h : n < 16 <;> simp [h]

theorem jsTruthy_mkMetadata (text : List Char) (n : Nat) (now : Int) :
    jsTruthy (mkMetadata text n now) = true := by
  simp [mkMetadata, jsTruthy]

/-- The decoded frame objects of one generated transmission, in index
order. -/
def framesJson (chunks : List (List Char)) (meta : JsonValue) : List JsonValue :=
  chunks.enum.map (fun p => frameJsonObj p.2 (p.1 : Int) (chunks.length : Int) meta)

/-- The chunk list that `generateQRData` uses. -/
def genChunksOf (text : List Char) (options : GenOptions) : List (List Char) :=
  if text = [] then [[]] else chunkData text (jsOrDefault options.maxChunkSize 800)

theorem generateQRData_raw (text : List Char) (options : GenOptions) (now : Int) :
    generateQRData text options now =
      (genChunksOf text options).enum.map (fun p =>
        ({ frameNumber := p.1 + 1
           totalFrames := (genChunksOf text options).length
           data := p.2
           metadata := if p.1 = 0 then
             some (mkMetadata text (genChunksOf text options).length now) else none
           raw := encodeFrame p.2 (p.1 : Int) ((genChunksOf text options).length : Int)
             (mkMetadata text (genChunksOf text options).length now) } : GenFrame)) := by
  rfl

/-- Decoding the raw strings of generated frames yields exactly the
frame objects (codec round-trip at the batch level). -/
theorem decoded_generateQRData (text : List Char) (options : GenOptions) (now : Int) :
    (generateQRData text options now).map (fun g => decodeFrame g.raw) =
      framesJson (genChunksOf text options)
        (mkMetadata text (genChunksOf text options).length now) := by
  rw [generateQRData_raw, framesJson]
  rw [List.map_map]
  apply List.map_congr_left
  intro p _
  exact decodeFrame_encodeFrame p.2 (p.1 : Int) _ _
    (valNeeds_mkMetadata text (genChunksOf text options).length now)

theorem framesJson_length (chunks : List (List Char)) (meta : JsonValue) :
    (framesJson chunks meta).length = chunks.length := by
  simp [framesJson]

theorem framesJson_getElem (chunks : List (List Char)) (meta : JsonValue)
    (j : Nat) (hj : j < chunks.length) (hj' : j < (framesJson chunks meta).length) :
    (framesJson chunks meta)[j] =
      frameJsonObj chunks[j] (j : Int) (chunks.length : Int) meta := by
  simp [framesJson]

/-! ## Deduplication and sorting machinery -/

theorem dedupByIndex_subset : ∀ (L : List JsonValue) (seen : List (Option JsonValue)) (f : JsonValue),
    f ∈ dedupByIndex L seen → f ∈ L := by
  intro L
  induction L with
  | nil => intro seen f hf; simp [dedupByIndex] at hf
  | cons g rest ih =>
    intro seen f hf
    rw [dedupByIndex] at hf
    by_cases h : getField g "i".toList ∈ seen
    · rw [if_pos h] at hf
      exact List.mem_cons_of_mem _ (ih _ _ hf)
    · rw [if_neg h] at hf
      rcases List.mem_cons.mp hf with rfl | hf'
      · exact List.mem_cons_self _ _
      · exact List.mem_cons_of_mem _ (ih _ _ hf')

theorem dedupByIndex_not_seen : ∀ (L : List JsonValue) (seen : List (Option JsonValue))
    (f : JsonValue), f ∈ dedupByIndex L seen → getField f "i".toList ∉ seen := by
  intro L
  induction L with
  | nil => intro seen f hf; simp [dedupByIndex] at hf
  | cons g rest ih =>
    intro seen f hf
    rw [dedupByIndex] at hf
    by_cases h : getField g "i".toList ∈ seen
    · rw [if_pos h] at hf
      exact ih _ _ hf
    · rw [if_neg h] at hf
      rcases List.mem_cons.mp hf with rfl | hf'
      · exact h
      · have := ih _ _ hf'
        intro hc
        exact this (List.mem_cons_of_mem _ hc)

theorem dedupByIndex_keys_nodup : ∀ (L : List JsonValue) (seen : List (Option JsonValue)),
    ((dedupByIndex L seen).map (fun f => getField f "i".toList)).Nodup := by
  intro L
  induction L with
  | nil => intro seen; simp [dedupByIndex]
  | cons g rest ih =>
    intro seen
    rw [dedupByIndex]
    by_cases h : getField g "i".toList ∈ seen
    · rw [if_pos h]; exact ih _
    · rw [if_neg h]
      simp only [List.map_cons, List.nodup_cons]
      refine ⟨?_, ih _⟩
      intro hmem
      obtain ⟨f, hf, hkey⟩ := List.mem_map.mp hmem
      have := dedupByIndex_not_seen _ _ _ hf
      rw [hkey] at this
      exact this (List.mem_cons_self _ _)

theorem dedupByIndex_covers : ∀ (L : List JsonValue) (seen : List (Option JsonValue))
    (f : JsonValue), f ∈ L → getField f "i".toList ∉ seen →
    ∃ g ∈ dedupByIndex L seen, getField g "i".toList = getField f "i".toList := by
  intro L
  induction L with
  | nil => intro seen f hf; simp at hf
  | cons g rest ih =>
    intro seen f hf hseen
    rw [dedupByIndex]
    rcases List.mem_cons.mp hf with rfl | hf'
    · rw [if_neg hseen]
      exact ⟨f, List.mem_cons_self _ _, rfl⟩
    · by_cases h : getField g "i".toList ∈ seen
      · rw [if_pos h]
        exact ih _ _ hf' hseen
      · rw [if_neg h]
        by_cases hk : getField f "i".toList = getField g "i".toList
        · exact ⟨g, List.mem_cons_self _ _, hk.symm⟩
        · have : getField f "i".toList ∉ getField g "i".toList :: seen := by
            intro hc
            rcases List.mem_cons.mp hc with hc' | hc'
            · exact hk hc'
            · exact hseen hc'
          obtain ⟨g', hg', hkey⟩ := ih _ _ hf' this
          exact ⟨g', List.mem_cons_of_mem _ hg', hkey⟩

theorem dedupByIndex_eq_self : ∀ (L : List JsonValue) (seen : List (Option JsonValue)),
    (L.map (fun f => getField f "i".toList)).Nodup →
    (∀ f ∈ L, getField f "i".toList ∉ seen) → dedupByIndex L seen = L := by
  intro L
  induction L with
  | nil => intro seen _ _; rfl
  | cons g rest ih =>
    intro seen hnodup hseen
    rw [dedupByIndex, if_neg (hseen g (List.mem_cons_self _ _))]
    congr 1
    simp only [List.map_cons, List.nodup_cons] at hnodup
    apply ih _ hnodup.2
    intro f hf hc
    rcases List.mem_cons.mp hc with hc' | hc'
    · exact hnodup.1 (List.mem_map.mpr ⟨f, hf, hc'⟩)
    · exact hseen f (List.mem_cons_of_mem _ hf) hc'

theorem dedupJS_all_seen {α : Type} [DecidableEq α] :
    ∀ (l : List α) (seen : List α), (∀ y ∈ l, y ∈ seen) → dedupJS l seen = [] := by
  intro l
  induction l with
  | nil => intro seen _; rfl
  | cons x rest ih =>
    intro seen h
    rw [dedupJS, if_pos (h x (List.mem_cons_self _ _))]
    exact ih _ (fun y hy => h y (List.mem_cons_of_mem _ hy))

theorem dedupJS_const {α : Type} [DecidableEq α] (x : α) :
    ∀ (l : List α), (∀ y ∈ l, y = x) → l ≠ [] → dedupJS l [] = [x] := by
  intro l hall hne
  cases l with
  | nil => exact absurd rfl hne
  | cons y rest =>
    have hy : y = x := hall y (List.mem_cons_self _ _)
    subst hy
    rw [dedupJS, if_neg (List.not_mem_nil _)]
    rw [dedupJS_all_seen rest [y] (fun z hz => by
      simp [hall z (List.mem_cons_of_mem _ hz)])]

theorem framesJson_mem_elim {chunks : List (List Char)} {meta : JsonValue} {f : JsonValue}
    (hf : f ∈ framesJson chunks meta) :
    ∃ j, ∃ (hj : j < chunks.length),
      f = frameJsonObj chunks[j] (j : Int) (chunks.length : Int) meta := by
  obtain ⟨j, hj, hval⟩ := List.mem_iff_getElem.mp hf
  have hjc : j < chunks.length := by simpa [framesJson] using hj
  rw [framesJson_getElem chunks meta j hjc hj] at hval
  exact ⟨j, hjc, hval.symm⟩

theorem framesJson_mem_intro (chunks : List (List Char)) (meta : JsonValue) (j : Nat)
    (hj : j < chunks.length) :
    frameJsonObj chunks[j] (j : Int) (chunks.length : Int) meta ∈ framesJson chunks meta := by
  have hj' : j < (framesJson chunks meta).length := by simpa [framesJson] using hj
  exact List.mem_iff_getElem.mpr ⟨j, hj', framesJson_getElem chunks meta j hj hj'⟩

theorem frameIdxNum_frame (c : List Char) (k n : Int) (meta : JsonValue) :
    frameIdxNum (frameJsonObj c k n meta) = k := by
  show optIdxNum (getField (frameJsonObj c k n meta) "i".toList) = k
  rw [getField_frame_i]
  rfl

theorem framesJson_key_inj {chunks : List (List Char)} {meta : JsonValue} {f g : JsonValue}
    (hf : f ∈ framesJson chunks meta) (hg : g ∈ framesJson chunks meta)
    (hkey : getField f "i".toList = getField g "i".toList) : f = g := by
  obtain ⟨j1, hj1, rfl⟩ := framesJson_mem_elim hf
  obtain ⟨j2, hj2, rfl⟩ := framesJson_mem_elim hg
  rw [getField_frame_i, getField_frame_i] at hkey
  have h1 : (j1 : Int) = (j2 : Int) := by simpa using hkey
  have h2 : j1 = j2 := by exact_mod_cast h1
  subst h2
  rfl

theorem framesJson_keys (chunks : List (List Char)) (meta : JsonValue) :
    (framesJson chunks meta).map (fun f => getField f "i".toList) =
      (List.range chunks.length).map (fun (j : Nat) => some (jnum (j : Int))) := by
  rw [framesJson, List.map_map]
  have h1 : ((fun f => getField f "i".toList) ∘
      (fun p : Nat × List Char => frameJsonObj p.2 (p.1 : Int) (chunks.length : Int) meta)) =
      (fun (j : Nat) => some (jnum (j : Int))) ∘ Prod.fst := by
    funext p
    exact getField_frame_i p.2 (p.1 : Int) (chunks.length : Int) meta
  rw [h1, ← List.map_map, List.enum_map_fst]

theorem framesJson_keys_nodup (chunks : List (List Char)) (meta : JsonValue) :
    ((framesJson chunks meta).map (fun f => getField f "i".toList)).Nodup := by
  rw [framesJson_keys]
  refine List.Nodup.map ?_ (List.nodup_range chunks.length)
  intro a b h
  simp only [Option.some.injEq, jnum.injEq] at h
  exact_mod_cast h

theorem framesJson_idxNum (chunks : List (List Char)) (meta : JsonValue) :
    (framesJson chunks meta).map frameIdxNum =
      (List.range chunks.length).map (fun (j : Nat) => (j : Int)) := by
  rw [framesJson, List.map_map]
  have h1 : (frameIdxNum ∘
      (fun p : Nat × List Char => frameJsonObj p.2 (p.1 : Int) (chunks.length : Int) meta)) =
      (fun (j : Nat) => (j : Int)) ∘ Prod.fst := by
    funext p
    exact frameIdxNum_frame p.2 (p.1 : Int) (chunks.length : Int) meta
  rw [h1, ← List.map_map, List.enum_map_fst]

theorem framesJson_idxNum_nodup (chunks : List (List Char)) (meta : JsonValue) :
    ((framesJson chunks meta).map frameIdxNum).Nodup := by
  rw [framesJson_idxNum]
  refine List.Nodup.map ?_ (List.nodup_range chunks.length)
  intro a b h
  simp only at h
  exact_mod_cast h

/-- Strict order on frames by declared index (used to identify the
unique sorted arrangement). -/
def frameLt (a b : JsonValue) : Prop := frameIdxNum a < frameIdxNum b

instance : IsAntisymm JsonValue frameLt :=
  ⟨fun _ _ h1 h2 => absurd (lt_trans h1 h2) (lt_irrefl _)⟩

theorem framesJson_sorted (chunks : List (List Char)) (meta : JsonValue) :
    (framesJson chunks meta).Sorted frameLt := by
  apply List.pairwise_iff_getElem.mpr
  intro i j hi hj hij
  have hic : i < chunks.length := by simpa [framesJson] using hi
  have hjc : j < chunks.length := by simpa [framesJson] using hj
  rw [framesJson_getElem chunks meta i hic hi, framesJson_getElem chunks meta j hjc hj]
  show frameIdxNum _ < frameIdxNum _
  rw [frameIdxNum_frame, frameIdxNum_frame]
  exact_mod_cast hij

/-- A permutation of a strictly key-sorted, key-distinct list sorts
back to exactly that list (the stable sort's result is unique). -/
theorem insertionSort_eq_of_perm (l B : List JsonValue) (hperm : l.Perm B)
    (hsorted : B.Sorted frameLt) (hnodup : (B.map frameIdxNum).Nodup) :
    l.insertionSort frameLe = B := by
  have hp : (l.insertionSort frameLe).Perm B :=
    (List.perm_insertionSort frameLe l).trans hperm
  have hs : (l.insertionSort frameLe).Sorted frameLe :=
    List.sorted_insertionSort frameLe l
  have hnodup' : ((l.insertionSort frameLe).map frameIdxNum).Nodup :=
    ((hp.map frameIdxNum).nodup_iff).mpr hnodup
  have hne : (l.insertionSort frameLe).Pairwise (fun a b => frameIdxNum a ≠ frameIdxNum b) :=
    (List.pairwise_map).mp hnodup'
  have hlt : (l.insertionSort frameLe).Sorted frameLt := by
    have := List.Pairwise.and hs hne
    exact this.imp (fun h => lt_of_le_of_ne h.1 h.2)
  exact List.eq_of_perm_of_sorted hp hlt hsorted

/-! ## Validation of a batch that is set-equal to one transmission -/

theorem validate_setEq (chunks : List (List Char)) (meta : JsonValue)
    (hch : chunks ≠ []) (L : List JsonValue)
    (hsub : ∀ f ∈ L, f ∈ framesJson chunks meta)
    (hsup : ∀ f ∈ framesJson chunks meta, f ∈ L) :
    validateFrameSequence (some L) = .valid (uniqueFramesOf L) ∧
      (uniqueFramesOf L).insertionSort frameLe = framesJson chunks meta := by
  have hBne : framesJson chunks meta ≠ [] := by
    intro h
    apply hch
    have := congrArg List.length h
    rw [framesJson_length] at this
    exact List.eq_nil_of_length_eq_zero this
  have hLne : L ≠ [] := by
    obtain ⟨b, hb⟩ := List.exists_mem_of_ne_nil _ hBne
    intro h
    rw [h] at hsup
    exact (List.not_mem_nil b) (hsup b hb)
  have hUsubL : ∀ f ∈ uniqueFramesOf L, f ∈ L :=
    fun f hf => dedupByIndex_subset L [] f hf
  have hUsubB : ∀ f ∈ uniqueFramesOf L, f ∈ framesJson chunks meta :=
    fun f hf => hsub f (hUsubL f hf)
  have hUkeys : ((uniqueFramesOf L).map (fun f => getField f "i".toList)).Nodup :=
    dedupByIndex_keys_nodup L []
  have hBsubU : ∀ f ∈ framesJson chunks meta, f ∈ uniqueFramesOf L := by
    intro f hf
    obtain ⟨g, hg, hkey⟩ := dedupByIndex_covers L [] f (hsup f hf) (List.not_mem_nil _)
    have heq : g = f := framesJson_key_inj (hUsubB g hg) hf hkey
    rwa [← heq]
  have hUnodup : (uniqueFramesOf L).Nodup := List.Nodup.of_map _ hUkeys
  have hBnodup : (framesJson chunks meta).Nodup :=
    List.Nodup.of_map _ (framesJson_keys_nodup chunks meta)
  have hperm : (uniqueFramesOf L).Perm (framesJson chunks meta) :=
    (List.perm_ext_iff_of_nodup hUnodup hBnodup).mpr
      (fun a => ⟨fun h => hUsubB a h, fun h => hBsubU a h⟩)
  have hUne : uniqueFramesOf L ≠ [] := by
    intro h
    obtain ⟨b, hb⟩ := List.exists_mem_of_ne_nil _ hBne
    have := hBsubU b hb
    rw [h] at this
    exact (List.not_mem_nil b) this
  have hlen0 : ¬(L.length = 0) := fun h => hLne (List.eq_nil_of_length_eq_zero h)
  have hinv : invalidFramesOf L = [] := by
    rw [invalidFramesOf, List.filter_eq_nil_iff]
    intro f hf
    obtain ⟨j, hj, rfl⟩ := framesJson_mem_elim (hsub f hf)
    simp only [jsTruthy_frame, fieldTruthy_frame_error, Bool.not_true, Bool.or_self]
    simp
  obtain ⟨u0, U', hUcons⟩ : ∃ u0 U', uniqueFramesOf L = u0 :: U' := by
    cases hUc : uniqueFramesOf L with
    | nil => exact absurd hUc hUne
    | cons a b => exact ⟨a, b, rfl⟩
  have hexp : expectedTotalOf L = chunks.length := by
    rw [expectedTotalOf]
    rw [hUcons]
    have hu0B : u0 ∈ framesJson chunks meta := by
      apply hUsubB
      rw [hUcons]
      exact List.mem_cons_self _ _
    obtain ⟨j, hj, hu0⟩ := framesJson_mem_elim hu0B
    rw [List.headD_cons, hu0, getField_frame_t]
    simp [jsArrayLen]
  have hmemIdx : ∀ (i : Nat), i < chunks.length →
      (some (jnum (i : Int))) ∈ frameIndicesOf L := by
    intro i hi
    rw [frameIndicesOf]
    apply (List.perm_insertionSort optIdxLe _).mem_iff.mpr
    apply List.mem_map.mpr
    exact ⟨frameJsonObj chunks[i] (i : Int) (chunks.length : Int) meta,
      hBsubU _ (framesJson_mem_intro chunks meta i hi),
      getField_frame_i _ _ _ _⟩
  have hmiss : missingOf L = [] := by
    rw [missingOf, List.filter_eq_nil_iff]
    intro i hi
    rw [hexp] at hi
    have hc : (frameIndicesOf L).contains (some (jnum (i : Int))) = true :=
      List.elem_eq_true_of_mem (hmemIdx i (List.mem_range.mp hi))
    simp [hc]
    exact hmemIdx i (List.mem_range.mp hi)
  have htot : totalsOf L = [some (jnum (chunks.length : Int))] := by
    rw [totalsOf]
    apply dedupJS_const
    · intro y hy
      obtain ⟨f, hf, hfy⟩ := List.mem_map.mp hy
      obtain ⟨j, hj, rfl⟩ := framesJson_mem_elim (hUsubB f hf)
      rw [← hfy, getField_frame_t]
    · rw [hUcons]
      simp
  have hval : validateFrameSequence (some L) = .valid (uniqueFramesOf L) := by
    show (if L.length = 0 then ValidationOutcome.invalid "No frames provided".toList
      else if 0 < (invalidFramesOf L).length then
        ValidationOutcome.invalid "Invalid frame data".toList
      else if 0 < (missingOf L).length then
        ValidationOutcome.invalid ("Missing frames: ".toList ++
          joinSep ", ".toList ((missingOf L).map natToDec))
      else if (totalsOf L).length ≠ 1 then
        ValidationOutcome.invalid "Inconsistent total frame count".toList
      else ValidationOutcome.valid (uniqueFramesOf L)) = .valid (uniqueFramesOf L)
    rw [if_neg hlen0, if_neg (by rw [hinv]; simp), if_neg (by rw [hmiss]; simp),
      if_neg (by rw [htot]; simp)]
  exact ⟨hval, insertionSort_eq_of_perm _ _ hperm (framesJson_sorted chunks meta)
    (framesJson_idxNum_nodup chunks meta)⟩

/-! ## Reconstruction and the full pipeline -/

theorem joinDisplay_frame_d (c : List Char) (k n : Int) (meta : JsonValue) :
    joinDisplay (getField (frameJsonObj c k n meta) "d".toList) = c := by
  rw [getField_frame_d]
  rfl

theorem reconstructData_of_sorted (chunks : List (List Char)) (meta : JsonValue)
    (hch : chunks ≠ []) (l : List JsonValue)
    (hl : l.insertionSort frameLe = framesJson chunks meta) :
    reconstructData l = (chunks.flatten, if jsTruthy meta then meta else jobj []) := by
  have hlen : 0 < chunks.length := List.length_pos.mpr hch
  simp only [reconstructData]
  rw [hl]
  have htext : (framesJson chunks meta).map (fun f => joinDisplay (getField f "d".toList)) =
      chunks := by
    rw [framesJson, List.map_map]
    have h1 : ((fun f => joinDisplay (getField f "d".toList)) ∘
        (fun p : Nat × List Char => frameJsonObj p.2 (p.1 : Int) (chunks.length : Int) meta)) =
        (Prod.snd : Nat × List Char → List Char) := by
      funext p
      exact joinDisplay_frame_d p.2 (p.1 : Int) (chunks.length : Int) meta
    rw [h1, List.enum_map_snd]
  rw [htext]
  have hhead : (framesJson chunks meta).headD (jobj []) =
      frameJsonObj (chunks.headD []) (0 : Int) (chunks.length : Int) meta := by
    obtain ⟨c0, rest, rfl⟩ : ∃ c0 rest, chunks = c0 :: rest := by
      cases chunks with
      | nil => exact absurd rfl hch
      | cons a b => exact ⟨a, b, rfl⟩
    rw [framesJson, List.enum_cons, List.map_cons, List.headD_cons, List.headD_cons]
    norm_num
  rw [hhead, getField_frame_m]
  simp

theorem calculateChecksum_ne_nil (text : List Char) : calculateChecksum text ≠ [] := by
  unfold calculateChecksum
  exact natToHex_ne_nil _

theorem fieldTruthy_mkMetadata_checksum (text : List Char) (n : Nat) (now : Int) :
    fieldTruthy (mkMetadata text n now) "checksum".toList = true := by
  unfold fieldTruthy
  rw [getField_mkMetadata_checksum]
  simp [jsTruthy, List.isEmpty_iff, calculateChecksum_ne_nil]

/-- Verifying the reconstructed text against its own metadata succeeds. -/
theorem verifyIntegrity_self (text : List Char) (n : Nat) (now : Int) :
    verifyIntegrity text (mkMetadata text n now) =
      ⟨true, "Checksum verified".toList, some (jstr (calculateChecksum text)),
        some (calculateChecksum text)⟩ := by
  rw [verifyIntegrity]
  rw [fieldTruthy_mkMetadata_checksum]
  simp only [Bool.not_true, Bool.false_eq_true, if_false]
  rw [getField_mkMetadata_checksum]
  simp

theorem genChunksOf_ne_nil (text : List Char) (options : GenOptions)
    (hpos : text ≠ [] → 0 < jsOrDefault options.maxChunkSize 800) :
    genChunksOf text options ≠ [] := by
  rw [genChunksOf]
  by_cases h : text = []
  · simp [h]
  · rw [if_neg h]
    exact chunkData_ne_nil text _ (hpos h) h

theorem genChunksOf_flatten (text : List Char) (options : GenOptions)
    (hpos : text ≠ [] → 0 < jsOrDefault options.maxChunkSize 800) :
    (genChunksOf text options).flatten = text := by
  rw [genChunksOf]
  by_cases h : text = []
  · simp [h]
  · rw [if_neg h]
    exact chunkData_flatten text _ (hpos h)

/-- The full pipeline on any collection of generated frames that is
set-equal to the generated transmission: parsing succeeds, returns the
original text and the frame-0 metadata, and integrity verification
passes. -/
theorem parseQRData_ofSetEq (text : List Char) (options : GenOptions) (now : Int)
    (hpos : text ≠ [] → 0 < jsOrDefault options.maxChunkSize 800)
    (G : List GenFrame)
    (hsub : ∀ g ∈ G, g ∈ generateQRData text options now)
    (hsup : ∀ g ∈ generateQRData text options now, g ∈ G) :
    parseQRData G = .success text
      (mkMetadata text (genChunksOf text options).length now)
      ⟨true, "Checksum verified".toList, some (jstr (calculateChecksum text)),
        some (calculateChecksum text)⟩ := by
  have hchne := genChunksOf_ne_nil text options hpos
  have hLsub : ∀ f ∈ G.map (fun g => decodeFrame g.raw),
      f ∈ framesJson (genChunksOf text options)
        (mkMetadata text (genChunksOf text options).length now) := by
    intro f hf
    obtain ⟨g, hg, rfl⟩ := List.mem_map.mp hf
    rw [← decoded_generateQRData text options now]
    exact List.mem_map.mpr ⟨g, hsub g hg, rfl⟩
  have hLsup : ∀ f ∈ framesJson (genChunksOf text options)
      (mkMetadata text (genChunksOf text options).length now),
      f ∈ G.map (fun g => decodeFrame g.raw) := by
    intro f hf
    rw [← decoded_generateQRData text options now] at hf
    obtain ⟨g, hg, rfl⟩ := List.mem_map.mp hf
    exact List.mem_map.mpr ⟨g, hsup g hg, rfl⟩
  obtain ⟨hval, hsort⟩ := validate_setEq (genChunksOf text options)
    (mkMetadata text (genChunksOf text options).length now) hchne
    (G.map (fun g => decodeFrame g.raw)) hLsub hLsup
  have hrec := reconstructData_of_sorted (genChunksOf text options)
    (mkMetadata text (genChunksOf text options).length now) hchne
    (uniqueFramesOf (G.map (fun g => decodeFrame g.raw))) hsort
  rw [jsTruthy_mkMetadata, if_pos rfl] at hrec
  show (match validateFrameSequence (some (G.map (fun g => decodeFrame g.raw))) with
    | .invalid e => ParseResult.failure e
    | .valid uniqueFrames =>
      ParseResult.success (reconstructData uniqueFrames).1 (reconstructData uniqueFrames).2
        (verifyIntegrity (reconstructData uniqueFrames).1 (reconstructData uniqueFrames).2)) = _
  simp only [hval]
  rw [hrec]
  simp only [genChunksOf_flatten text options hpos]
  rw [verifyIntegrity_self]

/-! ## Additional helpers for the claims -/

theorem validateFrameSequence_some (fs : List JsonValue) :
    validateFrameSequence (some fs) =
      (if fs.length = 0 then .invalid "No frames provided".toList
       else if 0 < (invalidFramesOf fs).length then .invalid "Invalid frame data".toList
       else if 0 < (missingOf fs).length then
         .invalid ("Missing frames: ".toList ++
           joinSep ", ".toList ((missingOf fs).map natToDec))
       else if (totalsOf fs).length ≠ 1 then
         .invalid "Inconsistent total frame count".toList
       else .valid (uniqueFramesOf fs)) := rfl

theorem jsOrDefault_pos (S : Int) (hS : 0 < S) : jsOrDefault (some S) 800 = S := by
  rw [jsOrDefault, if_neg (by omega)]

theorem map_eraseIdx {α β : Type} (f : α → β) (l : List α) (k : Nat) :
    (l.eraseIdx k).map f = (l.map f).eraseIdx k := by
  rw [List.eraseIdx_eq_take_drop_succ, List.eraseIdx_eq_take_drop_succ,
    List.map_append, List.map_take, List.map_drop]

theorem filter_range_eq_singleton (n k : Nat) (hk : k < n) (p : Nat → Bool)
    (hp : ∀ i, i < n → (p i = true ↔ i = k)) :
    (List.range n).filter p = [k] := by
  induction n with
  | zero => omega
  | succ n ih =>
    rw [List.range_succ, List.filter_append]
    by_cases hkn : k = n
    · subst hkn
      have h1 : (List.range k).filter p = [] := by
        rw [List.filter_eq_nil_iff]
        intro a ha hpa
        have hak := List.mem_range.mp ha
        exact absurd ((hp a (by omega)).mp hpa) (by omega)
      rw [h1]
      simp [List.filter_cons, (hp k (by omega)).mpr rfl]
    · have hk' : k < n := by omega
      rw [ih hk' (fun i hi => hp i (by omega))]
      have h2 : p n = false := by
        cases hpn : p n with
        | false => rfl
        | true => exact absurd ((hp n (by omega)).mp hpn).symm hkn
      simp [List.filter_cons, h2]

theorem generateQRData_length (text : List Char) (options : GenOptions) (now : Int) :
    (generateQRData text options now).length = (genChunksOf text options).length := by
  rw [generateQRData_raw]
  simp

/-- Validating one transmission with the frame at position `k` removed
fails with precisely `Missing frames: k`. -/
theorem validate_eraseIdx (chunks : List (List Char)) (meta : JsonValue) (k : Nat)
    (hn : 2 ≤ chunks.length) (hk : k < chunks.length) :
    validateFrameSequence (some ((framesJson chunks meta).eraseIdx k)) =
      .invalid ("Missing frames: ".toList ++ natToDec k) := by
  have hBlen : (framesJson chunks meta).length = chunks.length := framesJson_length chunks meta
  have hLlen : ((framesJson chunks meta).eraseIdx k).length = chunks.length - 1 := by
    rw [List.length_eraseIdx_of_lt (by omega), hBlen]
  have hLsubB : ∀ f ∈ (framesJson chunks meta).eraseIdx k, f ∈ framesJson chunks meta :=
    fun f hf => (List.eraseIdx_sublist _ k).subset hf
  have hinv : invalidFramesOf ((framesJson chunks meta).eraseIdx k) = [] := by
    rw [invalidFramesOf, List.filter_eq_nil_iff]
    intro f hf
    obtain ⟨j, hj, rfl⟩ := framesJson_mem_elim (hLsubB f hf)
    simp only [jsTruthy_frame, fieldTruthy_frame_error, Bool.not_true, Bool.or_self]
    simp
  have hkeysL : (((framesJson chunks meta).eraseIdx k).map
      (fun f => getField f "i".toList)).Nodup := by
    rw [map_eraseIdx]
    exact (List.eraseIdx_sublist _ k).nodup (framesJson_keys_nodup chunks meta)
  have hU : uniqueFramesOf ((framesJson chunks meta).eraseIdx k) =
      (framesJson chunks meta).eraseIdx k :=
    dedupByIndex_eq_self _ [] hkeysL (fun f _ => List.not_mem_nil _)
  have hLne : (framesJson chunks meta).eraseIdx k ≠ [] := by
    intro h
    have := congrArg List.length h
    rw [hLlen] at this
    simp at this
    omega
  obtain ⟨u0, U', hUcons⟩ : ∃ u0 U', (framesJson chunks meta).eraseIdx k = u0 :: U' := by
    cases hc : (framesJson chunks meta).eraseIdx k with
    | nil => exact absurd hc hLne
    | cons a b => exact ⟨a, b, rfl⟩
  have hexp : expectedTotalOf ((framesJson chunks meta).eraseIdx k) = chunks.length := by
    rw [expectedTotalOf, hU, hUcons, List.headD_cons]
    have hu0B : u0 ∈ framesJson chunks meta := by
      apply hLsubB
      rw [hUcons]
      exact List.mem_cons_self _ _
    obtain ⟨j, hj, rfl⟩ := framesJson_mem_elim hu0B
    rw [getField_frame_t]
    simp [jsArrayLen]
  have hmemkey : ∀ (i : Nat), (some (jnum (i : Int)) ∈
      frameIndicesOf ((framesJson chunks meta).eraseIdx k)) ↔ (i < chunks.length ∧ i ≠ k) := by
    intro i
    rw [frameIndicesOf, (List.perm_insertionSort optIdxLe _).mem_iff, hU, map_eraseIdx,
      framesJson_keys]
    rw [List.mem_eraseIdx_iff_getElem]
    constructor
    · rintro ⟨j, hj, hjk, hjval⟩
      simp only [List.length_map, List.length_range] at hj
      rw [List.getElem_map, List.getElem_range] at hjval
      simp only [Option.some.injEq, jnum.injEq] at hjval
      have : j = i := by exact_mod_cast hjval
      subst this
      exact ⟨hj, hjk⟩
    · rintro ⟨hi, hik⟩
      refine ⟨i, by simpa using hi, hik, ?_⟩
      rw [List.getElem_map, List.getElem_range]
  have hmiss : missingOf ((framesJson chunks meta).eraseIdx k) = [k] := by
    rw [missingOf, hexp]
    apply filter_range_eq_singleton chunks.length k hk
    intro i hi
    constructor
    · intro hp
      by_contra hik
      have hmem : some (jnum (i : Int)) ∈
          frameIndicesOf ((framesJson chunks meta).eraseIdx k) :=
        (hmemkey i).mpr ⟨hi, hik⟩
      have hc2 : (frameIndicesOf ((framesJson chunks meta).eraseIdx k)).contains
          (some (jnum (i : Int))) = true :=
        List.elem_eq_true_of_mem hmem
      rw [hc2] at hp
      simp at hp
    · intro hik
      subst hik
      have hnotmem : ¬ (some (jnum (i : Int)) ∈
          frameIndicesOf ((framesJson chunks meta).eraseIdx i)) := by
        intro hc
        exact ((hmemkey i).mp hc).2 rfl
      simp only [Bool.not_eq_true']
      cases hc : (frameIndicesOf ((framesJson chunks meta).eraseIdx i)).contains
          (some (jnum (i : Int))) with
      | false => simp
      | true =>
        exact absurd (List.elem_iff.mp hc) hnotmem
  rw [validateFrameSequence_some]
  rw [if_neg (by rw [hLlen]; omega), if_neg (by rw [hinv]; simp), if_pos (by rw [hmiss]; simp)]
  rw [hmiss]
  rfl

/-! ## The claims -/

/-- C1: Round-trip correctness — for every text `T` and every positive
chunk size `S`, generating frames with `generateQRData` and parsing the
full set with `parseQRData` reconstructs exactly `T` (with a passing
integrity check), and the chunks concatenate to `T` with every chunk of
length at most `S`. -/
theorem spec_C1 (T : List Char) (S now : Int) (hS : 0 < S) :
    parseQRData (generateQRData T ⟨some S, none, none⟩ now) =
      .success T (mkMetadata T (genChunksOf T ⟨some S, none, none⟩).length now)
        ⟨true, "Checksum verified".toList, some (jstr (calculateChecksum T)),
          some (calculateChecksum T)⟩ ∧
    (genChunksOf T ⟨some S, none, none⟩).flatten = T ∧
    (∀ c ∈ genChunksOf T ⟨some S, none, none⟩, c.length ≤ S.toNat) := by
  have hpos : T ≠ [] → 0 < jsOrDefault (some S) 800 := by
    intro _
    rw [jsOrDefault_pos S hS]
    exact hS
  refine ⟨parseQRData_ofSetEq T ⟨some S, none, none⟩ now hpos _
    (fun g hg => hg) (fun g hg => hg), genChunksOf_flatten _ _ hpos, ?_⟩
  intro c hc
  rw [genChunksOf] at hc
  by_cases h : T = []
  · rw [if_pos h] at hc
    simp only [List.mem_singleton] at hc
    subst hc
    simp
  · rw [if_neg h] at hc
    have := chunkData_mem_length T _ c hc
    rwa [show jsOrDefault (GenOptions.mk (some S) none none).maxChunkSize 800 = S from
      jsOrDefault_pos S hS] at this

theorem spec_C1_witness :
    parseQRData (generateQRData "abcde".toList ⟨some 2, none, none⟩ 0) =
      .success "abcde".toList
        (mkMetadata "abcde".toList (genChunksOf "abcde".toList ⟨some 2, none, none⟩).length 0)
        ⟨true, "Checksum verified".toList, some (jstr (calculateChecksum "abcde".toList)),
          some (calculateChecksum "abcde".toList)⟩ ∧
    (genChunksOf "abcde".toList ⟨some 2, none, none⟩).flatten = "abcde".toList :=
  ⟨(spec_C1 "abcde".toList 2 0 (by decide)).1, (spec_C1 "abcde".toList 2 0 (by decide)).2.1⟩

/-- C2 (amended): decoding never escapes an exception — for every input
string, `decodeFrame` returns the parsed JSON value when `JSON.parse`
succeeds and the distinguished `{error: 'Invalid frame data'}` object
when it fails.  Contrary to the original claim, a successful decode is
NOT checked for well-formedness: any JSON value is returned as-is (see
`spec_C2_cex`). -/
theorem spec_C2 (s : List Char) :
    decodeFrame s = (jsonParse s).getD decodeErrorValue := by
  unfold decodeFrame
  cases jsonParse s <;> rfl

/-- C2 counterexample: the string `{}` decodes successfully (it is not
the decode-error value and carries no `error` field), yet it has none
of the five expected fields `v, i, t, d, m` — refuting "a decode
success implies the frame has the five expected fields". -/
theorem spec_C2_cex :
    decodeFrame "{}".toList ≠ decodeErrorValue ∧
    fieldTruthy (decodeFrame "{}".toList) "error".toList = false ∧
    getField (decodeFrame "{}".toList) "v".toList = none ∧
    getField (decodeFrame "{}".toList) "i".toList = none ∧
    getField (decodeFrame "{}".toList) "t".toList = none ∧
    getField (decodeFrame "{}".toList) "d".toList = none ∧
    getField (decodeFrame "{}".toList) "m".toList = none := by decide

/-- C3 (amended): a batch of decodable frames whose deduplicated frames
declare more than one distinct total never validates; it fails with
`InconsistentTotal` exactly when the missing-index check (computed
against the FIRST unique frame's declared total) passes, and with
`MissingFrames` otherwise (see `spec_C3_cex`). -/
theorem spec_C3 (fs : List JsonValue) (hne : fs ≠ [])
    (hclean : invalidFramesOf fs = [])
    (htot : (totalsOf fs).length ≠ 1) :
    (∀ u, validateFrameSequence (some fs) ≠ .valid u) ∧
    (missingOf fs = [] →
      validateFrameSequence (some fs) = .invalid "Inconsistent total frame count".toList) := by
  have hlen : ¬ fs.length = 0 := fun h => hne (List.eq_nil_of_length_eq_zero h)
  constructor
  · intro u
    rw [validateFrameSequence_some, if_neg hlen, if_neg (by rw [hclean]; simp)]
    by_cases hm : 0 < (missingOf fs).length
    · rw [if_pos hm]
      simp
    · rw [if_neg hm, if_pos htot]
      simp
  · intro hmz
    rw [validateFrameSequence_some, if_neg hlen, if_neg (by rw [hclean]; simp),
      if_neg (by rw [hmz]; simp), if_pos htot]

theorem spec_C3_witness :
    validateFrameSequence (some [frameJsonObj "a".toList 0 2 jnull,
        frameJsonObj "b".toList 1 3 jnull]) =
      .invalid "Inconsistent total frame count".toList :=
  (spec_C3 _ (by decide) (by decide) (by decide)).2 (by decide)

/-- C3 counterexample: the two-frame batch `{i:0, t:3}`, `{i:1, t:2}`
declares two distinct totals but fails with a `Missing frames` error,
not `InconsistentTotal` — the missing-index check (based on the first
unique frame's total, here 3) runs first. -/
theorem spec_C3_cex :
    validateFrameSequence (some [frameJsonObj "a".toList 0 3 jnull,
        frameJsonObj "b".toList 1 2 jnull]) =
      .invalid ("Missing frames: ".toList ++ natToDec 2) ∧
    ("Missing frames: ".toList ++ natToDec 2 : List Char) ≠
      "Inconsistent total frame count".toList := by decide

/-- C4: Missing-frame precision — removing the frame at position `k`
from a complete `n`-frame transmission (`n ≥ 2`) makes validation fail
with a `MissingFrames` error whose reported list is exactly `{k}`. -/
theorem spec_C4 (T : List Char) (S now : Int) (hS : 0 < S) (k : Nat)
    (hn : 2 ≤ (generateQRData T ⟨some S, none, none⟩ now).length)
    (hk : k < (generateQRData T ⟨some S, none, none⟩ now).length) :
    validateFrameSequence (some (((generateQRData T ⟨some S, none, none⟩ now).eraseIdx k).map
      (fun g => decodeFrame g.raw))) =
      .invalid ("Missing frames: ".toList ++ natToDec k) := by
  rw [map_eraseIdx, decoded_generateQRData]
  rw [generateQRData_length] at hn hk
  exact validate_eraseIdx _ _ k hn hk

theorem spec_C4_witness :
    validateFrameSequence (some (((generateQRData "abc".toList ⟨some 2, none, none⟩ 0).eraseIdx 1).map
      (fun g => decodeFrame g.raw))) =
      .invalid ("Missing frames: ".toList ++ natToDec 1) :=
  spec_C4 "abc".toList 2 0 (by decide) 1 (by decide) (by decide)

/-- C5 (amended): Integrity verification is soft and total — with a
FALSY (not merely absent) `metadata.checksum` it reports
`valid, "No checksum to verify"`; with a truthy checksum differing from
the recomputed one it reports `invalid, "Checksum mismatch"` together
with the expected and actual values; and whenever validation passes,
`parseQRData` still delivers the reconstructed text regardless of the
integrity outcome.  The amendment replaces the claim's "absent" by
"falsy": see `spec_C5_cex` for a present-but-falsy checksum. -/
theorem spec_C5 (text : List Char) (md : JsonValue) :
    (fieldTruthy md "checksum".toList = false →
      verifyIntegrity text md = ⟨true, "No checksum to verify".toList, none, none⟩) ∧
    (∀ cs, getField md "checksum".toList = some cs → jsTruthy cs = true →
      cs ≠ jstr (calculateChecksum text) →
      verifyIntegrity text md =
        ⟨false, "Checksum mismatch".toList, some cs, some (calculateChecksum text)⟩) ∧
    (∀ (G : List GenFrame) (u : List JsonValue),
      validateFrameSequence (some (G.map (fun g => decodeFrame g.raw))) = .valid u →
      parseQRData G = .success (reconstructData u).1 (reconstructData u).2
        (verifyIntegrity (reconstructData u).1 (reconstructData u).2)) := by
  refine ⟨?_, ?_, ?_⟩
  · intro h
    rw [verifyIntegrity, h]
    simp
  · intro cs hcs htruthy hne
    have ht : fieldTruthy md "checksum".toList = true := by
      unfold fieldTruthy
      rw [hcs]
      exact htruthy
    rw [verifyIntegrity, ht]
    simp only [Bool.not_true, Bool.false_eq_true, if_false]
    rw [hcs]
    have hbeq : (some cs == some (jstr (calculateChecksum text))) = false := by
      apply beq_eq_false_iff_ne.mpr
      intro hc
      exact hne (Option.some.inj hc)
    rw [hbeq]
    simp
  · intro G u hval
    show (match validateFrameSequence (some (G.map (fun g => decodeFrame g.raw))) with
      | .invalid e => ParseResult.failure e
      | .valid uniqueFrames =>
        ParseResult.success (reconstructData uniqueFrames).1 (reconstructData uniqueFrames).2
          (verifyIntegrity (reconstructData uniqueFrames).1
            (reconstructData uniqueFrames).2)) = _
    rw [hval]

theorem spec_C5_witness :
    verifyIntegrity "Xi".toList (mkMetadata "Hi".toList 1 0) =
      ⟨false, "Checksum mismatch".toList, some (jstr (calculateChecksum "Hi".toList)),
        some (calculateChecksum "Xi".toList)⟩ :=
  (spec_C5 "Xi".toList (mkMetadata "Hi".toList 1 0)).2.1
    (jstr (calculateChecksum "Hi".toList)) (by decide) (by decide) (by decide)

/-- C5 counterexample: a metadata object whose `checksum` is PRESENT
but the empty string (which can never equal the recomputed checksum)
still yields `valid, "No checksum to verify"` — the source tests the
checksum for falsiness, not absence, so the claim's "otherwise
recomputes … and on mismatch returns valid: false" is wrong for this
input. -/
theorem spec_C5_cex :
    getField (jobj [("checksum".toList, jstr [])]) "checksum".toList = some (jstr []) ∧
    jstr ([] : List Char) ≠ jstr (calculateChecksum "x".toList) ∧
    verifyIntegrity "x".toList (jobj [("checksum".toList, jstr [])]) =
      ⟨true, "No checksum to verify".toList, none, none⟩ := by decide

/-- C6: Order independence and duplicate tolerance — any collection of
generated frames containing the same frames as the full transmission
(in any order, with any duplication) parses to the identical result. -/
theorem spec_C6 (T : List Char) (S now : Int) (hS : 0 < S) (L : List GenFrame)
    (h1 : ∀ g ∈ L, g ∈ generateQRData T ⟨some S, none, none⟩ now)
    (h2 : ∀ g ∈ generateQRData T ⟨some S, none, none⟩ now, g ∈ L) :
    parseQRData L = parseQRData (generateQRData T ⟨some S, none, none⟩ now) := by
  have hpos : T ≠ [] → 0 < jsOrDefault (some S) 800 := by
    intro _
    rw [jsOrDefault_pos S hS]
    exact hS
  rw [parseQRData_ofSetEq T ⟨some S, none, none⟩ now hpos L h1 h2,
    parseQRData_ofSetEq T ⟨some S, none, none⟩ now hpos _ (fun g hg => hg) (fun g hg => hg)]

theorem spec_C6_witness :
    parseQRData ((generateQRData "abc".toList ⟨some 2, none, none⟩ 0).drop 1 ++
        generateQRData "abc".toList ⟨some 2, none, none⟩ 0) =
      parseQRData (generateQRData "abc".toList ⟨some 2, none, none⟩ 0) :=
  spec_C6 "abc".toList 2 0 (by decide) _ (by decide) (by decide)

/-- C7: Empty-input policy — chunking the empty string yields exactly
one frame with empty payload and `total = 1` (whatever the options),
and the full pipeline reconstructs the empty string without error. -/
theorem spec_C7 (options : GenOptions) (now : Int) :
    generateQRData [] options now =
      [⟨1, 1, [], some (mkMetadata [] 1 now), encodeFrame [] 0 1 (mkMetadata [] 1 now)⟩] ∧
    parseQRData (generateQRData [] options now) =
      .success [] (mkMetadata [] 1 now)
        ⟨true, "Checksum verified".toList, some (jstr (calculateChecksum [])),
          some (calculateChecksum [])⟩ := by
  have hpos : ([] : List Char) ≠ [] → 0 < jsOrDefault options.maxChunkSize 800 :=
    fun h => absurd rfl h
  have hch : genChunksOf [] options = [[]] := by
    rw [genChunksOf]
    simp
  constructor
  · rw [generateQRData_raw, hch]
    rfl
  · have h := parseQRData_ofSetEq [] options now hpos _ (fun g hg => hg) (fun g hg => hg)
    rw [hch] at h
    simpa using h

/-- C8: the claim is right and the code is wrong.  `options.maxChunkSize || 800`
replaces only falsy values, so a negative `maxChunkSize` (invalid per
the spec) is NOT replaced by the default 800, and the source's chunking
loop then never terminates on nonempty text: `chunkLoop` (the faithful
fuel-indexed trace of the loop) fails to finish for every fuel. -/
theorem spec_C8 :
    jsOrDefault (some (-5)) 800 = -5 ∧
    (∀ fuel : Nat, chunkLoop fuel "ab".toList (-5) 0 [] = none) := by
  refine ⟨by decide, ?_⟩
  intro fuel
  exact chunkLoop_neg_diverges "ab".toList (-5) (by decide) (by decide) fuel 0 le_rfl []

/-- C9: Metadata-on-frame-0-only — in a generated transmission, the
frame at position 0 (and only that one) carries the metadata object,
and the decoded wire object of every other frame has no `m` member. -/
theorem spec_C9 (T : List Char) (S now : Int) (hS : 0 < S) (k : Nat)
    (hk : k < (generateQRData T ⟨some S, none, none⟩ now).length) :
    ((generateQRData T ⟨some S, none, none⟩ now).get ⟨k, hk⟩).metadata =
      (if k = 0 then some (mkMetadata T (genChunksOf T ⟨some S, none, none⟩).length now)
       else none) ∧
    getField (decodeFrame ((generateQRData T ⟨some S, none, none⟩ now).get ⟨k, hk⟩).raw)
        "m".toList =
      (if k = 0 then some (mkMetadata T (genChunksOf T ⟨some S, none, none⟩).length now)
       else none) := by
  have hk' : k < (genChunksOf T ⟨some S, none, none⟩).length := by
    rwa [generateQRData_length] at hk
  have hget : (generateQRData T ⟨some S, none, none⟩ now).get ⟨k, hk⟩ =
      ({ frameNumber := k + 1
         totalFrames := (genChunksOf T ⟨some S, none, none⟩).length
         data := (genChunksOf T ⟨some S, none, none⟩)[k]
         metadata := if k = 0 then
           some (mkMetadata T (genChunksOf T ⟨some S, none, none⟩).length now) else none
         raw := encodeFrame ((genChunksOf T ⟨some S, none, none⟩)[k]) (k : Int)
           ((genChunksOf T ⟨some S, none, none⟩).length : Int)
           (mkMetadata T (genChunksOf T ⟨some S, none, none⟩).length now) } : GenFrame) := by
    rw [List.get_eq_getElem]
    simp only [generateQRData_raw T ⟨some S, none, none⟩ now, List.getElem_map,
      List.getElem_enum]
  refine ⟨by rw [hget], ?_⟩
  rw [hget]
  show getField (decodeFrame (encodeFrame _ _ _ _)) "m".toList = _
  rw [decodeFrame_encodeFrame _ _ _ _
    (valNeeds_mkMetadata T (genChunksOf T ⟨some S, none, none⟩).length now)]
  rw [getField_frame_m]
  by_cases hk0 : k = 0
  · subst hk0
    simp
  · rw [if_neg (by exact_mod_cast hk0), if_neg hk0]

theorem spec_C9_witness :
    ((generateQRData "abc".toList ⟨some 2, none, none⟩ 0).get ⟨1, by decide⟩).metadata = none ∧
    getField (decodeFrame ((generateQRData "abc".toList ⟨some 2, none, none⟩ 0).get
        ⟨1, by decide⟩).raw) "m".toList = none := by
  have h := spec_C9 "abc".toList 2 0 (by decide) 1 (by decide)
  simpa using h

/-- C10: Empty-batch rejection — a null/undefined frames argument and
an empty frame array both fail with the distinct error
`No frames provided`, which is none of the other named errors (in
particular it does not begin with the `Missing frames: ` prefix of a
missing-frames error). -/
theorem spec_C10 :
    validateFrameSequence none = .invalid "No frames provided".toList ∧
    validateFrameSequence (some []) = .invalid "No frames provided".toList ∧
    ("No frames provided".toList : List Char) ≠ "Invalid frame data".toList ∧
    ("No frames provided".toList : List Char) ≠ "Inconsistent total frame count".toList ∧
    ("No frames provided".toList.take 16 : List Char) ≠ "Missing frames: ".toList := by
  decide
